import Mathlib

/-!
Shallow embedding of the annotation coordinate & export engine of
`src/lib/export-pdf.ts` (react-pdf-highlighter-plus).

Modelling conventions:
* JS strings are `List Char`; JS numbers are `ℚ` (the source only adds,
  subtracts, multiplies, divides and compares, so exact rational arithmetic
  models the float computations symbolically).
* A JS `NaN` produced by `parseInt`/`parseFloat` is modelled as `none` of
  `Option ℚ`.
* `font.widthOfTextAtSize(s, size)` (pdf-lib, an external capability) is an
  abstract parameter `font : List Char → ℚ → ℚ`.
* Image decoding/embedding (`atob` + pdf-lib `embedPng`/`embedJpg`, external
  capabilities whose failure the source catches) is an abstract parameter
  `embedOk : List Char → Bool`.
* The mutated `PDFDocument` is observed through the list of drawing commands
  issued against its pages, plus the list of progress-callback invocations.
-/

namespace ExportPdfModel

/-- Models the character class of the JS regexes `\s` / `String.trim`
(space, tab, carriage return, newline; the rare extra Unicode space code
points never interact with the claims). -/
def jsIsSpace (c : Char) : Bool :=
  c = ' ' || c = '\t' || c = '\r' || c = '\n'

/-- Models the JS character class `\d`, i.e. `[0-9]` (code points 48-57). -/
def isDigitJs (c : Char) : Bool :=
  48 ≤ c.toNat && c.toNat ≤ 57

/-- Models `text.split(/\n/)`: split at every newline, keeping empty fields. -/
def splitNl : List Char → List (List Char)
  | [] => [[]]
  | c :: cs =>
    if c = '\n' then [] :: splitNl cs
    else
      match splitNl cs with
      | [] => [[c]]
      | l :: ls => (c :: l) :: ls

/-- Worker for `splitRuns`: `cur` is the field being accumulated and
`prevSep` records whether the previous character belonged to a separator
run (so that a maximal run produces a single split point). -/
def splitRunsGo (p : Char → Bool) : List Char → List Char → Bool → List (List Char)
  | [], cur, _ => [cur]
  | c :: cs, cur, prevSep =>
    if p c then
      if prevSep then splitRunsGo p cs [] true
      else cur :: splitRunsGo p cs [] true
    else splitRunsGo p cs (cur ++ [c]) false

/-- Models `paragraph.split(/\s+/)` (for `p := jsIsSpace`): split at maximal
runs of separator characters; a leading or trailing run yields an empty
field, interior runs do not. -/
def splitRuns (p : Char → Bool) (s : List Char) : List (List Char) :=
  splitRunsGo p s [] false

/-- Value of a string of decimal digits (the numeric part of JS `parseInt`). -/
def digitsVal (ds : List Char) : ℕ :=
  ds.foldl (fun a c => 10 * a + (c.toNat - 48)) 0

/-- True hex digit characters accepted by JS `parseInt(·, 16)`:
`[0-9a-fA-F]` (code points 97-102 are `a`-`f`, 65-70 are `A`-`F`). -/
def isHexDigitJs (c : Char) : Bool :=
  isDigitJs c || (97 ≤ c.toNat && c.toNat ≤ 102) || (65 ≤ c.toNat && c.toNat ≤ 70)

/-- Numeric value of one hex digit character. -/
def hexDigitVal (c : Char) : ℕ :=
  if isDigitJs c then c.toNat - 48
  else if 97 ≤ c.toNat && c.toNat ≤ 102 then c.toNat - 97 + 10
  else c.toNat - 65 + 10

/-- Value of a string of hex digits. -/
def hexVal (ds : List Char) : ℕ :=
  ds.foldl (fun a c => 16 * a + hexDigitVal c) 0

/-- The optional sign of a JS `parseInt` argument: the sign factor and the
remaining characters. -/
def jsSignSplit (t : List Char) : ℤ × List Char :=
  match t with
  | '-' :: r => (-1, r)
  | '+' :: r => (1, r)
  | _ => (1, t)

/-- Strip an optional `0x`/`0X` hex prefix. -/
def jsStripHexPrefix (t : List Char) : List Char :=
  match t with
  | '0' :: 'x' :: r => r
  | '0' :: 'X' :: r => r
  | _ => t

/-- Models JS `parseInt(s, 16)`: skip whitespace, optional sign, optional
`0x`/`0X` prefix, then the maximal run of hex digits; `none` models `NaN`
(empty digit run). -/
def jsParseIntHex (s : List Char) : Option ℤ :=
  let st := jsSignSplit (s.dropWhile jsIsSpace)
  let ds := (jsStripHexPrefix st.2).takeWhile isHexDigitJs
  if ds.isEmpty then none else some (st.1 * (hexVal ds : ℤ))

/-- Models JS `parseInt(s)` (radix auto-detected): skip whitespace, optional
sign, then either a `0x`-prefixed hex literal or the maximal run of decimal
digits; `none` models `NaN`. -/
def jsParseIntDec (s : List Char) : Option ℤ :=
  let st := jsSignSplit (s.dropWhile jsIsSpace)
  match st.2 with
  | '0' :: 'x' :: r =>
    let ds := r.takeWhile isHexDigitJs
    if ds.isEmpty then none else some (st.1 * (hexVal ds : ℤ))
  | '0' :: 'X' :: r =>
    let ds := r.takeWhile isHexDigitJs
    if ds.isEmpty then none else some (st.1 * (hexVal ds : ℤ))
  | _ =>
    let ds := st.2.takeWhile isDigitJs
    if ds.isEmpty then none else some (st.1 * (digitsVal ds : ℤ))

/-- Models JS `parseFloat` on the strings the alpha capture group `[\d.]+`
can produce (digits and dots only): the longest valid decimal-literal
prefix, `none` models `NaN`. -/
def jsParseFloatDD (s : List Char) : Option ℚ :=
  let ip := s.takeWhile isDigitJs
  match s.drop ip.length with
  | '.' :: rest =>
    let fp := rest.takeWhile isDigitJs
    if ip.isEmpty && fp.isEmpty then none
    else some ((digitsVal ip : ℚ) + (digitsVal fp : ℚ) / (10 ^ fp.length))
  | _ => if ip.isEmpty then none else some (digitsVal ip)

/-- Result of matching the channel regex: the three integer channel
captures, the optional raw alpha capture, and the characters after the
match. -/
structure RgbaMatch where
  r : ℕ
  g : ℕ
  b : ℕ
  alpha : Option (List Char)
  rest : List Char
deriving Repr, DecidableEq

/-- Attempt to match the regex
`rgba?\((\d+),\s*(\d+),\s*(\d+)(?:,\s*([\d.]+))?\)` at the start of `s`.
Returns the three integer channel captures, the optional raw alpha capture,
and the characters after the match.  The pattern has no backtracking
ambiguity (each greedy piece is followed by a character it cannot match),
so maximal-munch parsing is exact. -/
def rgbaAt (s : List Char) : Option RgbaMatch := do
  let t0 ←
    match s with
    | 'r' :: 'g' :: 'b' :: 'a' :: '(' :: t => some t
    | 'r' :: 'g' :: 'b' :: '(' :: t => some t
    | _ => none
  let d1 := t0.takeWhile isDigitJs
  if d1.isEmpty then none else
  let t1 := t0.drop d1.length
  let t2 ←
    match t1 with
    | ',' :: t => some (t.dropWhile jsIsSpace)
    | _ => none
  let d2 := t2.takeWhile isDigitJs
  if d2.isEmpty then none else
  let t3 := t2.drop d2.length
  let t4 ←
    match t3 with
    | ',' :: t => some (t.dropWhile jsIsSpace)
    | _ => none
  let d3 := t4.takeWhile isDigitJs
  if d3.isEmpty then none else
  let t5 := t4.drop d3.length
  match t5 with
  | ')' :: rest => some ⟨digitsVal d1, digitsVal d2, digitsVal d3, none, rest⟩
  | ',' :: t6 =>
    let t7 := t6.dropWhile jsIsSpace
    let alpha := t7.takeWhile (fun c => isDigitJs c || c = '.')
    if alpha.isEmpty then none else
    match t7.drop alpha.length with
    | ')' :: rest => some ⟨digitsVal d1, digitsVal d2, digitsVal d3, some alpha, rest⟩
    | _ => none
  | _ => none

/-- Models `color.match(/rgba?\(...\)/)`: an unanchored leftmost search. -/
def findRgba : List Char → Option RgbaMatch
  | [] => none
  | c :: cs =>
    match rgbaAt (c :: cs) with
    | some m => some m
    | none => findRgba cs

/-- Models `color.replace("#", "")`: removes the first `#` only. -/
def stripFirstHash : List Char → List Char
  | [] => []
  | c :: cs => if c = '#' then cs else c :: stripFirstHash cs

/-- Result of `parseColor`: each component is a JS number in `Option ℚ`
(`none` models `NaN`). -/
structure JsColor where
  r : Option ℚ
  g : Option ℚ
  b : Option ℚ
  a : Option ℚ
deriving Repr, DecidableEq

/-- The "Default yellow" fallback `{ r: 1, g: 0.89, b: 0.56, a: 0.5 }`. -/
def fallbackColor : JsColor :=
  { r := some 1, g := some (89 / 100), b := some (14 / 25), a := some (1 / 2) }

/-- One hex channel: `parseInt(ds, 16) / 255` (a `NaN` stays `NaN`). -/
def hexChannel (ds : List Char) : Option ℚ :=
  (jsParseIntHex ds).map (fun v => (v : ℚ) / 255)

/-- Embedding of `parseColor` from `export-pdf.ts`. -/
def parseColor (color : List Char) : JsColor :=
  match findRgba color with
  | some m =>
    { r := some ((m.r : ℚ) / 255)
      g := some ((m.g : ℚ) / 255)
      b := some ((m.b : ℚ) / 255)
      a := match m.alpha with
           | some s => jsParseFloatDD s
           | none => some 1 }
  | none =>
    let hex := stripFirstHash color
    if hex.length = 3 then
      { r := hexChannel [hex.getD 0 ' ', hex.getD 0 ' ']
        g := hexChannel [hex.getD 1 ' ', hex.getD 1 ' ']
        b := hexChannel [hex.getD 2 ' ', hex.getD 2 ' '], a := some 1 }
    else if hex.length = 6 then
      { r := hexChannel (hex.take 2)
        g := hexChannel ((hex.drop 2).take 2)
        b := hexChannel ((hex.drop 4).take 2), a := some 1 }
    else fallbackColor

/-! ### Text layout engine (`wrapText`) -/

/-- The inner character-counting loop of `wrapText`'s break-word fallback:
starting from `charCount = k`, grow while
`charCount < remaining.length && width(remaining[0..charCount+1]) <= maxWidth`.
`rest` is `rem.drop k`, so `rest = []` iff `¬ (k < rem.length)`. -/
def fitGo (font : List Char → ℚ → ℚ) (fontSize maxWidth : ℚ) (rem : List Char) :
    ℕ → List Char → ℕ
  | k, [] => k
  | k, _ :: rs =>
    if font (rem.take (k + 1)) fontSize ≤ maxWidth then
      fitGo font fontSize maxWidth rem (k + 1) rs
    else k

/-- The `while (remaining.length > 0)` loop of `wrapText`'s break-word
fallback.  Each iteration consumes at least one character, so running it
with `fuel ≥ remaining.length` is exact; the unreachable out-of-fuel branch
returns as if the word were exhausted.  Returns the fully emitted lines and
the final `currentLine` (the last chunk, or `[]` for an empty word). -/
def breakWordGo (font : List Char → ℚ → ℚ) (fontSize maxWidth : ℚ) :
    ℕ → List Char → List (List Char) × List Char
  | _, [] => ([], [])
  | 0, _ :: _ => ([], [])
  | fuel + 1, c :: cs =>
    let rem := c :: cs
    let n := fitGo font fontSize maxWidth rem 1 (rem.drop 1)
    let chunk := rem.take n
    let rest := rem.drop n
    if rest = [] then ([], chunk)
    else
      let r := breakWordGo font fontSize maxWidth fuel rest
      (chunk :: r.1, r.2)

/-- The `for (const word of words)` loop of `wrapText`, with the final
`if (currentLine) lines.push(currentLine)` flush. -/
def wrapWords (font : List Char → ℚ → ℚ) (fontSize maxWidth : ℚ) :
    List (List Char) → List Char → List (List Char)
  | [], currentLine => if currentLine = [] then [] else [currentLine]
  | word :: ws, currentLine =>
    let testLine := if currentLine = [] then word else currentLine ++ ' ' :: word
    if font testLine fontSize ≤ maxWidth then
      wrapWords font fontSize maxWidth ws testLine
    else
      let flushed := if currentLine = [] then ([] : List (List Char)) else [currentLine]
      if maxWidth < font word fontSize then
        let r := breakWordGo font fontSize maxWidth word.length word
        flushed ++ r.1 ++ wrapWords font fontSize maxWidth ws r.2
      else
        flushed ++ wrapWords font fontSize maxWidth ws word

/-- One iteration of `wrapText`'s `for (const paragraph of paragraphs)`:
a paragraph that is blank after trimming contributes one empty line,
otherwise it is word-wrapped. -/
def wrapParagraph (font : List Char → ℚ → ℚ) (fontSize maxWidth : ℚ)
    (paragraph : List Char) : List (List Char) :=
  if paragraph.all jsIsSpace then [[]]
  else wrapWords font fontSize maxWidth (splitRuns jsIsSpace paragraph) []

/-- Embedding of `wrapText(text, font, fontSize, maxWidth)` from
`export-pdf.ts`. -/
def wrapText (text : List Char) (font : List Char → ℚ → ℚ)
    (fontSize maxWidth : ℚ) : List (List Char) :=
  if text = [] ∨ maxWidth ≤ 0 then []
  else (splitNl text).flatMap (wrapParagraph font fontSize maxWidth)

/-! ### Coordinate transform and data model -/

/-- The `Scaled` rectangle of `src/types.ts` (the spec's `NormalizedRect`):
a rectangle in page-relative units, `width`/`height` being the reference
page frame it was captured in. -/
structure Scaled where
  x1 : ℚ
  y1 : ℚ
  x2 : ℚ
  y2 : ℚ
  width : ℚ
  height : ℚ
  pageNumber : ℤ
deriving Repr, DecidableEq

/-- A box in PDF points (native page space, origin bottom-left). -/
structure PdfRect where
  x : ℚ
  y : ℚ
  width : ℚ
  height : ℚ
deriving Repr, DecidableEq

/-- Embedding of `scaledToPdfPoints(scaled, page)`; the `PDFPage` argument
is represented by its dimensions `page.getWidth()`/`page.getHeight()`. -/
def scaledToPdfPoints (scaled : Scaled) (pdfWidth pdfHeight : ℚ) : PdfRect :=
  let xRatio := pdfWidth / scaled.width
  let yRatio := pdfHeight / scaled.height
  let x := scaled.x1 * xRatio
  let width := (scaled.x2 - scaled.x1) * xRatio
  let height := (scaled.y2 - scaled.y1) * yRatio
  let y := pdfHeight - scaled.y1 * yRatio - height
  { x := x, y := y, width := width, height := height }

/-- `ScaledPosition` of `src/types.ts`, restricted to the fields the export
engine reads. -/
structure ScaledPosition where
  boundingRect : Scaled
  rects : List Scaled
deriving Repr, DecidableEq

/-- The `content` payload of an exportable highlight. -/
structure HighlightContent where
  text : Option (List Char)
  image : Option (List Char)
deriving Repr, DecidableEq

/-- The recognized values of `ExportableHighlight.type`. -/
inductive HighlightKind where
  | text
  | area
  | freetext
  | image
  | drawing
deriving Repr, DecidableEq

/-- `ExportableHighlight` from `export-pdf.ts` (`type := none` models a
missing/unrecognized discriminant, which the switch sends to the default
area arm). -/
structure ExportableHighlight where
  id : List Char
  type : Option HighlightKind
  content : Option HighlightContent
  position : ScaledPosition
  highlightColor : Option (List Char)
  color : Option (List Char)
  backgroundColor : Option (List Char)
  fontSize : Option (List Char)
  fontFamily : Option (List Char)
deriving Repr, DecidableEq

/-- `ExportPdfOptions` (the progress callback is observed through the
export result instead of being a field). -/
structure ExportPdfOptions where
  textHighlightColor : Option (List Char)
  areaHighlightColor : Option (List Char)
  defaultFreetextColor : Option (List Char)
  defaultFreetextBgColor : Option (List Char)
  defaultFreetextFontSize : Option ℚ
deriving Repr, DecidableEq

/-- JS `a || b` for an optional string `a` (both `undefined` and the empty
string are falsy). -/
def jsOrStr (o : Option (List Char)) (d : List Char) : List Char :=
  match o with
  | some s => if s.isEmpty then d else s
  | none => d

/-- JS `a || b` for an optional number `a` (`undefined`, `NaN` and `0` are
falsy; `none` models both `undefined` and `NaN`). -/
def jsOrNum (o : Option ℚ) (d : ℚ) : ℚ :=
  match o with
  | some x => if x = 0 then d else x
  | none => d

/-- The rgb part of a parsed color, as handed to pdf-lib's `rgb(r, g, b)`. -/
structure RGBVal where
  r : Option ℚ
  g : Option ℚ
  b : Option ℚ
deriving Repr, DecidableEq

/-- Forget the alpha of a `JsColor` (what `rgb(color.r, color.g, color.b)`
keeps). -/
def toRGB (c : JsColor) : RGBVal :=
  { r := c.r, g := c.g, b := c.b }

/-- One drawing command issued against a page surface: pdf-lib
`drawRectangle`, `drawText` or `drawImage` with the arguments the source
passes. -/
inductive DrawCmd where
  | rect (x y width height : ℚ) (color : RGBVal) (opacity : Option ℚ)
  | text (content : List Char) (x y size : ℚ) (color : RGBVal)
  | image (x y width height : ℚ) (data : List Char)
deriving Repr, DecidableEq

/-- Default color string for text/area highlights. -/
def defaultHighlightColorStr : List Char :=
  "rgba(255, 226, 143, 0.5)".toList

/-- Embedding of `renderTextHighlight` (page represented by its
dimensions). -/
def renderTextHighlight (pageW pageH : ℚ) (h : ExportableHighlight)
    (o : ExportPdfOptions) : List DrawCmd :=
  let color := parseColor
    (jsOrStr h.highlightColor (jsOrStr o.textHighlightColor defaultHighlightColorStr))
  let rects := if h.position.rects.length > 0 then h.position.rects
               else [h.position.boundingRect]
  rects.map (fun rct =>
    let p := scaledToPdfPoints rct pageW pageH
    DrawCmd.rect p.x p.y p.width p.height (toRGB color) color.a)

/-- Embedding of `renderAreaHighlight`. -/
def renderAreaHighlight (pageW pageH : ℚ) (h : ExportableHighlight)
    (o : ExportPdfOptions) : List DrawCmd :=
  let color := parseColor
    (jsOrStr h.highlightColor (jsOrStr o.areaHighlightColor defaultHighlightColorStr))
  let p := scaledToPdfPoints h.position.boundingRect pageW pageH
  [DrawCmd.rect p.x p.y p.width p.height (toRGB color) color.a]

/-- `highlight.content?.text || ""`. -/
def freetextText (h : ExportableHighlight) : List Char :=
  match h.content with
  | some c => c.text.getD []
  | none => []

/-- The scaled freetext font size:
`(parseInt(highlight.fontSize || "") || options.defaultFreetextFontSize || 14) * yRatio`. -/
def freetextFontSize (pageH : ℚ) (h : ExportableHighlight)
    (o : ExportPdfOptions) : ℚ :=
  let yRatio := pageH / h.position.boundingRect.height
  let storedFontSize :=
    jsOrNum ((jsParseIntDec (jsOrStr h.fontSize [])).map (fun v => (v : ℚ)))
      (jsOrNum o.defaultFreetextFontSize 14)
  storedFontSize * yRatio

/-- The freetext box in PDF points. -/
def freetextBox (pageW pageH : ℚ) (h : ExportableHighlight) : PdfRect :=
  scaledToPdfPoints h.position.boundingRect pageW pageH

/-- The scaled freetext padding `4 * yRatio`. -/
def freetextPadding (pageH : ℚ) (h : ExportableHighlight) : ℚ :=
  4 * (pageH / h.position.boundingRect.height)

/-- The inner wrapping width `width - padding * 2`. -/
def freetextMaxWidth (pageW pageH : ℚ) (h : ExportableHighlight) : ℚ :=
  (freetextBox pageW pageH h).width - freetextPadding pageH h * 2

/-- The freetext background color
(`highlight.backgroundColor || options.defaultFreetextBgColor || "#ffffc8"`). -/
def freetextBg (h : ExportableHighlight) (o : ExportPdfOptions) : JsColor :=
  parseColor (jsOrStr h.backgroundColor (jsOrStr o.defaultFreetextBgColor "#ffffc8".toList))

/-- The freetext text color
(`highlight.color || options.defaultFreetextColor || "#333333"`). -/
def freetextFg (h : ExportableHighlight) (o : ExportPdfOptions) : JsColor :=
  parseColor (jsOrStr h.color (jsOrStr o.defaultFreetextColor "#333333".toList))

/-- `line.trim()` is truthy, i.e. the line has a non-whitespace character. -/
def trimNonempty (l : List Char) : Bool :=
  !(l.all jsIsSpace)

/-- The `for (const line of lines)` loop of `renderFreetextHighlight`:
draw each non-blank line at the current baseline, move down by
`lineHeight`, and break as soon as a baseline falls below `bottom`
(`y + padding`). -/
def drawTextLines (xText bottom fontSize lineHeight : ℚ) (color : RGBVal) :
    List (List Char) → ℚ → List DrawCmd
  | [], _ => []
  | line :: rest, currentY =>
    if currentY < bottom then []
    else
      (if trimNonempty line then [DrawCmd.text line xText currentY fontSize color]
       else []) ++
      drawTextLines xText bottom fontSize lineHeight color rest (currentY - lineHeight)

/-- Embedding of `renderFreetextHighlight` (the `console.log` diagnostic is
not modelled; `font` abstracts the embedded Helvetica's
`widthOfTextAtSize`). -/
def renderFreetextHighlight (pageW pageH : ℚ) (h : ExportableHighlight)
    (o : ExportPdfOptions) (font : List Char → ℚ → ℚ) : List DrawCmd :=
  let text := freetextText h
  let bgColor := freetextBg h o
  let textColor := freetextFg h o
  let box := freetextBox pageW pageH h
  let fontSize := freetextFontSize pageH h o
  let padding := freetextPadding pageH h
  let maxWidth := freetextMaxWidth pageW pageH h
  let lineHeight := fontSize * (13 / 10)
  DrawCmd.rect box.x box.y box.width box.height (toRGB bgColor) bgColor.a ::
    (if 0 < maxWidth ∧ text ≠ [] then
      drawTextLines (box.x + padding) (box.y + padding) fontSize lineHeight
        (toRGB textColor) (wrapText text font fontSize maxWidth)
        (box.y + box.height - fontSize - padding)
    else [])

/-- Embedding of `renderImageHighlight`: `embedOk` abstracts the external
`dataUrlToBytes` + `embedPng`/`embedJpg` pipeline, whose failure the source
catches and turns into skipping the record. -/
def renderImageHighlight (embedOk : List Char → Bool) (pageW pageH : ℚ)
    (h : ExportableHighlight) : List DrawCmd :=
  match h.content with
  | none => []
  | some c =>
    match c.image with
    | none => []
    | some dataUrl =>
      if dataUrl.isEmpty then []
      else if embedOk dataUrl then
        let p := scaledToPdfPoints h.position.boundingRect pageW pageH
        [DrawCmd.image p.x p.y p.width p.height dataUrl]
      else []

/-- The `switch (highlight.type)` dispatch of `exportPdf` (drawings reuse
the image renderer; a missing/unrecognized type falls back to area). -/
def renderHighlight (embedOk : List Char → Bool) (font : List Char → ℚ → ℚ)
    (pageW pageH : ℚ) (o : ExportPdfOptions) (h : ExportableHighlight) :
    List DrawCmd :=
  match h.type with
  | some HighlightKind.text => renderTextHighlight pageW pageH h o
  | some HighlightKind.area => renderAreaHighlight pageW pageH h o
  | some HighlightKind.freetext => renderFreetextHighlight pageW pageH h o font
  | some HighlightKind.image => renderImageHighlight embedOk pageW pageH h
  | some HighlightKind.drawing => renderImageHighlight embedOk pageW pageH h
  | none => renderAreaHighlight pageW pageH h o

/-! ### Page batcher / export orchestrator -/

/-- The page number a record is grouped under. -/
def pageOf (h : ExportableHighlight) : ℤ :=
  h.position.boundingRect.pageNumber

/-- One step of `groupByPage`'s loop: append `h` to its page's group,
creating the group at the end on first encounter (JS `Map` insertion
order). -/
def insertGroup : List (ℤ × List ExportableHighlight) → ExportableHighlight →
    List (ℤ × List ExportableHighlight)
  | [], h => [(pageOf h, [h])]
  | (q, g) :: rest, h =>
    if q = pageOf h then (q, g ++ [h]) :: rest
    else (q, g) :: insertGroup rest h

/-- Embedding of `groupByPage`: a JS `Map` is an insertion-ordered
association list. -/
def groupByPage (hs : List ExportableHighlight) :
    List (ℤ × List ExportableHighlight) :=
  hs.foldl insertGroup []

/-- The loaded `PDFDocument`, observed through its page list
(each page is its `(width, height)` surface). -/
structure PdfDoc where
  pages : List (ℚ × ℚ)
deriving Repr, DecidableEq

/-- `pages[pageNum - 1]`: 1-indexed lookup, `none` when out of range. -/
def pageAt (doc : PdfDoc) (pn : ℤ) : Option (ℚ × ℚ) :=
  if pn ≤ 0 then none else doc.pages.get? (pn - 1).toNat

/-- Observable outcome of an export: the drawing commands issued (tagged
with the page number they were drawn on, in emission order) and the
progress-callback invocations `(current, total)` in call order. -/
structure ExportResult where
  draws : List (ℤ × DrawCmd)
  progress : List (ℕ × ℕ)
deriving Repr, DecidableEq

/-- The `for (const [pageNum, pageHighlights] of byPage)` loop of
`exportPdf`: `current` is the running `currentPage` counter, `total` the
group count captured before the loop. -/
def processGroups (doc : PdfDoc) (o : ExportPdfOptions)
    (font : List Char → ℚ → ℚ) (embedOk : List Char → Bool) (total : ℕ) :
    List (ℤ × List ExportableHighlight) → ℕ → ExportResult
  | [], _ => { draws := [], progress := [] }
  | (pn, ghs) :: rest, current =>
    match pageAt doc pn with
    | none => processGroups doc o font embedOk total rest current
    | some pg =>
      let cmds := ghs.flatMap (renderHighlight embedOk font pg.1 pg.2 o)
      let r := processGroups doc o font embedOk total rest (current + 1)
      { draws := cmds.map (fun c => (pn, c)) ++ r.draws
        progress := (current + 1, total) :: r.progress }

/-- Embedding of `exportPdf`: loading the source bytes, embedding the
Helvetica font and serializing the result are external capabilities, so the
model takes the loaded document and font metric directly and returns the
observable drawing/progress behaviour. -/
def exportPdf (doc : PdfDoc) (hs : List ExportableHighlight)
    (o : ExportPdfOptions) (font : List Char → ℚ → ℚ)
    (embedOk : List Char → Bool) : ExportResult :=
  let byPage := groupByPage hs
  processGroups doc o font embedOk byPage.length byPage 0

/-! ### Specification-side definitions (read off the spec text, for
comparison with the code) -/

/-- The four color formats the spec says `parseColor` recognizes
(`#rgb`, `#rrggbb`, `rgb(r,g,b)`, `rgba(r,g,b,a)`), as whole-string
formats.  Used only to compare the spec's claim with the code. -/
def specRecognizedColor (s : List Char) : Bool :=
  (match s with
   | '#' :: r => (r.length = 3 || r.length = 6) && r.all isHexDigitJs
   | _ => false) ||
  (match rgbaAt s with
   | some m => m.rest.isEmpty
   | none => false)

/-! ### Auxiliary definitions used to state and prove the properties -/

/-- Pair each list element with its index, starting at `i`. -/
def withIdx {α : Type} : List α → ℕ → List (ℕ × α)
  | [], _ => []
  | a :: as, i => (i, a) :: withIdx as (i + 1)

/-- Keep the first occurrence of each element (`seen` collects the keys
already emitted); this is the key order of a JS `Map` built by insertion. -/
def dedupFirstGo (seen : List ℤ) : List ℤ → List ℤ
  | [] => []
  | p :: ps =>
    if p ∈ seen then dedupFirstGo seen ps
    else p :: dedupFirstGo (p :: seen) ps

/-- First-occurrence deduplication. -/
def dedupKeepFirst (l : List ℤ) : List ℤ :=
  dedupFirstGo [] l

/-- The records of `hs` targeting page `p`, in input order. -/
def pageFilter (p : ℤ) (hs : List ExportableHighlight) : List ExportableHighlight :=
  hs.filter (fun h => pageOf h = p)

/-- The drawing commands page `p`'s group contributes to an export of
`hs` into `doc`: nothing when the page does not resolve, otherwise the
renders of the page's records in input order, tagged with `p`. -/
def drawsFor (doc : PdfDoc) (o : ExportPdfOptions) (font : List Char → ℚ → ℚ)
    (embedOk : List Char → Bool) (hs : List ExportableHighlight) (p : ℤ) :
    List (ℤ × DrawCmd) :=
  match pageAt doc p with
  | none => []
  | some pg =>
    ((pageFilter p hs).flatMap (renderHighlight embedOk font pg.1 pg.2 o)).map
      (fun c => (p, c))

/-- A wrapped line either fits the width budget or has at most one
character. -/
def fitsOrChar (font : List Char → ℚ → ℚ) (fontSize maxWidth : ℚ)
    (l : List Char) : Prop :=
  font l fontSize ≤ maxWidth ∨ l.length ≤ 1

/-- Join words with single spaces (what the greedy accumulator rebuilds). -/
def joinSp : List (List Char) → List Char
  | [] => []
  | [w] => w
  | w :: ws => w ++ ' ' :: joinSp ws

/-- The component is an actual number (not `NaN`) lying in `[0, 1]`. -/
def qInUnit (o : Option ℚ) : Prop :=
  ∃ q, o = some q ∧ 0 ≤ q ∧ q ≤ 1

/-- All four color components lie in `[0, 1]`. -/
def colorInRange (c : JsColor) : Prop :=
  qInUnit c.r ∧ qInUnit c.g ∧ qInUnit c.b ∧ qInUnit c.a

/-! ### Concrete inputs used by the witnesses and counterexamples -/

/-- A font metric where every character is one unit wide. -/
def lenFont (s : List Char) (_ : ℚ) : ℚ :=
  (s.length : ℚ)

/-- A font metric where every character is two units wide. -/
def doubleFont (s : List Char) (_ : ℚ) : ℚ :=
  2 * (s.length : ℚ)

/-- Empty options (all defaults apply). -/
def noOptions : ExportPdfOptions :=
  { textHighlightColor := none, areaHighlightColor := none
    defaultFreetextColor := none, defaultFreetextBgColor := none
    defaultFreetextFontSize := none }

/-- A concrete freetext record: text "hi", stored font size "10", a
100×50 box captured in a 200×100 reference frame on page 1. -/
def freetextRecord : ExportableHighlight :=
  { id := "f1".toList, type := some HighlightKind.freetext
    content := some { text := some "hi".toList, image := none }
    position := { boundingRect := { x1 := 0, y1 := 0, x2 := 100, y2 := 50
                                    width := 200, height := 100, pageNumber := 1 }
                  rects := [] }
    highlightColor := none, color := none, backgroundColor := none
    fontSize := some "10".toList, fontFamily := none }

/-- A concrete area record on page 1. -/
def areaRecordP1 : ExportableHighlight :=
  { id := "a1".toList, type := some HighlightKind.area
    content := none
    position := { boundingRect := { x1 := 0, y1 := 0, x2 := 10, y2 := 10
                                    width := 100, height := 100, pageNumber := 1 }
                  rects := [] }
    highlightColor := none, color := none, backgroundColor := none
    fontSize := none, fontFamily := none }

/-- A concrete area record on page 5 (out of range for a 1-page document). -/
def areaRecordP5 : ExportableHighlight :=
  { id := "a5".toList, type := some HighlightKind.area
    content := none
    position := { boundingRect := { x1 := 0, y1 := 0, x2 := 10, y2 := 10
                                    width := 100, height := 100, pageNumber := 5 }
                  rects := [] }
    highlightColor := none, color := none, backgroundColor := none
    fontSize := none, fontFamily := none }

/-- A one-page 100×100 document. -/
def onePageDoc : PdfDoc :=
  { pages := [(100, 100)] }

/-- Never-succeeding image embedder (no image records are used anyway). -/
def noEmbed (_ : List Char) : Bool :=
  false

/-! ## Theorems -/

/-- C4: when the reference frame stored in a `NormalizedRect` equals the
target page's dimensions, `scaledToPdfPoints` is the identity on the box:
`x = x1`, `width = x2 - x1`, `height = y2 - y1`, `y = H - y2` (exact in the
rational model of the float arithmetic); and the normalized unit square's
lower-left quarter `{x1:0, y1:0, x2:0.5, y2:0.5, pageWidth:1, pageHeight:1}`
maps onto a 600×800 page as `{x:0, y:400, width:300, height:400}`. -/
theorem scaledToPdfPoints_identity :
    (∀ (r : Scaled) (pw ph : ℚ), r.width = pw → r.height = ph →
      pw ≠ 0 → ph ≠ 0 →
      scaledToPdfPoints r pw ph =
        { x := r.x1, y := ph - r.y2, width := r.x2 - r.x1
          height := r.y2 - r.y1 }) ∧
    scaledToPdfPoints
        { x1 := 0, y1 := 0, x2 := 1/2, y2 := 1/2, width := 1, height := 1
          pageNumber := 1 } 600 800 =
      { x := 0, y := 400, width := 300, height := 400 } := by
  constructor
  · intro r pw ph hw hh hw0 hh0
    subst hw
    subst hh
    simp only [scaledToPdfPoints, div_self hw0, div_self hh0, mul_one,
      PdfRect.mk.injEq, true_and, and_true]
    ring
  · with_unfolding_all decide

/-- Witness for C4: a rect captured at frame 10×20 replayed on a 10×20
page keeps its box. -/
theorem scaledToPdfPoints_identity_witness :
    scaledToPdfPoints
        { x1 := 1, y1 := 2, x2 := 3, y2 := 5, width := 10, height := 20
          pageNumber := 1 } 10 20 =
      { x := 1, y := 20 - 5, width := 3 - 1, height := 5 - 2 } :=
  scaledToPdfPoints_identity.1
    { x1 := 1, y1 := 2, x2 := 3, y2 := 5, width := 10, height := 20
      pageNumber := 1 } 10 20 rfl rfl (by norm_num) (by norm_num)

/-- C2 (counterexample): `"abc"` is in none of the four spec-recognized
color formats, yet `parseColor` does not return the fallback: the code
strips at most one `#` and treats any leftover 3- or 6-character string as
hex, so `"abc"` parses as the hex color `#aabbcc`. -/
theorem parseColor_fallback_cex :
    specRecognizedColor "abc".toList = false ∧
    parseColor "abc".toList ≠ fallbackColor := by
  constructor
  · decide
  · with_unfolding_all decide

/-- C2 (amended): whenever the input contains no `rgb(...)`/`rgba(...)`
pattern and, after removing the first `#` (if any), does not have exactly
3 or 6 characters, `parseColor` returns the fixed opaque-warm-yellow
fallback (and, being total, never raises). -/
theorem parseColor_fallback (s : List Char)
    (hm : findRgba s = none)
    (h3 : (stripFirstHash s).length ≠ 3)
    (h6 : (stripFirstHash s).length ≠ 6) :
    parseColor s = fallbackColor := by
  unfold parseColor
  rw [hm]
  simp only [h3, if_false, h6]

/-- Witness for C2: `"not-a-color"` gets the fallback. -/
theorem parseColor_fallback_witness :
    parseColor "not-a-color".toList = fallbackColor := by
  refine parseColor_fallback "not-a-color".toList ?_ ?_ ?_ <;> decide

/-- A hex digit is not a whitespace character. -/
lemma hex_not_space {c : Char} (h : isHexDigitJs c = true) : jsIsSpace c = false := by
  by_contra hs
  have hs' : jsIsSpace c = true := by
    cases hb : jsIsSpace c
    · exact absurd hb hs
    · rfl
  simp only [jsIsSpace, Bool.or_eq_true, decide_eq_true_eq] at hs'
  rcases hs' with ((h1 | h1) | h1) | h1 <;> subst h1 <;> exact absurd h (by decide)

/-- A hex digit is none of the sign and prefix characters `-`, `+`, `x`, `X`. -/
lemma hex_ne_signs {c : Char} (h : isHexDigitJs c = true) :
    c ≠ '-' ∧ c ≠ '+' ∧ c ≠ 'x' ∧ c ≠ 'X' := by
  refine ⟨?_, ?_, ?_, ?_⟩ <;> intro he <;> subst he <;> exact absurd h (by decide)

/-- The value of a hex digit is at most 15. -/
lemma hexDigitVal_le {c : Char} (h : isHexDigitJs c = true) : hexDigitVal c ≤ 15 := by
  simp only [isHexDigitJs, isDigitJs, Bool.or_eq_true, Bool.and_eq_true,
    decide_eq_true_eq] at h
  unfold hexDigitVal
  split
  · next hd =>
    simp only [isDigitJs, Bool.and_eq_true, decide_eq_true_eq] at hd
    omega
  · next hd =>
    simp only [isDigitJs, Bool.and_eq_true, decide_eq_true_eq] at hd
    split
    · next hl =>
      simp only [Bool.and_eq_true, decide_eq_true_eq] at hl
      omega
    · next hl =>
      simp only [Bool.and_eq_true, decide_eq_true_eq, not_and] at hl
      omega

/-- `takeWhile` keeps a list all of whose elements satisfy the predicate. -/
lemma takeWhile_all {p : Char → Bool} :
    ∀ l : List Char, (∀ c ∈ l, p c = true) → l.takeWhile p = l
  | [], _ => rfl
  | c :: cs, h => by
    rw [List.takeWhile_cons, if_pos (h c (List.mem_cons_self c cs))]
    rw [takeWhile_all cs (fun d hd => h d (List.mem_cons_of_mem c hd))]

/-- `jsSignSplit` is the identity (sign `1`) on a string starting with a
hex digit. -/
lemma jsSignSplit_hex {c0 : Char} (l' : List Char) (hc0 : isHexDigitJs c0 = true) :
    jsSignSplit (c0 :: l') = (1, c0 :: l') := by
  rcases hex_ne_signs hc0 with ⟨hm, hp, -, -⟩
  unfold jsSignSplit
  split
  · next r heq =>
    rw [List.cons.injEq] at heq
    exact absurd heq.1 hm
  · next r heq =>
    rw [List.cons.injEq] at heq
    exact absurd heq.1 hp
  · rfl

/-- `jsStripHexPrefix` is the identity on a string of true hex digits. -/
lemma jsStripHexPrefix_hex {c0 : Char} {l' : List Char}
    (hall : ∀ c ∈ c0 :: l', isHexDigitJs c = true) :
    jsStripHexPrefix (c0 :: l') = c0 :: l' := by
  unfold jsStripHexPrefix
  split
  · next r heq =>
    rw [List.cons.injEq] at heq
    have hx : isHexDigitJs 'x' = true := by
      refine hall 'x' ?_
      rw [heq.2]
      exact List.mem_cons_of_mem _ (List.mem_cons_self _ _)
    exact absurd hx (by decide)
  · next r heq =>
    rw [List.cons.injEq] at heq
    have hx : isHexDigitJs 'X' = true := by
      refine hall 'X' ?_
      rw [heq.2]
      exact List.mem_cons_of_mem _ (List.mem_cons_self _ _)
    exact absurd hx (by decide)
  · rfl

/-- `parseInt(·, 16)` on a nonempty string of true hex digits parses the
whole string (no whitespace, sign or `0x` prefix can occur). -/
lemma jsParseIntHex_hex (l : List Char) (hne : l ≠ [])
    (hall : ∀ c ∈ l, isHexDigitJs c = true) :
    jsParseIntHex l = some (hexVal l : ℤ) := by
  obtain ⟨c0, l', rfl⟩ := List.exists_cons_of_ne_nil hne
  have hc0 : isHexDigitJs c0 = true := hall c0 (List.mem_cons_self c0 l')
  have hdrop : (c0 :: l').dropWhile jsIsSpace = c0 :: l' := by
    rw [List.dropWhile_cons, if_neg]
    simp [hex_not_space hc0]
  simp only [jsParseIntHex, hdrop, jsSignSplit_hex l' hc0, jsStripHexPrefix_hex hall,
    takeWhile_all _ hall, List.isEmpty_cons, one_mul]
  simp

/-- The value of a two-hex-digit string is at most 255. -/
lemma hexVal_two_le {c d : Char} (hc : isHexDigitJs c = true)
    (hd : isHexDigitJs d = true) : hexVal [c, d] ≤ 255 := by
  have h1 := hexDigitVal_le hc
  have h2 := hexDigitVal_le hd
  simp only [hexVal, List.foldl]
  omega

/-- A two-hex-digit channel value lands in `[0, 1]`. -/
lemma hexChannel_inUnit {c d : Char} (hc : isHexDigitJs c = true)
    (hd : isHexDigitJs d = true) : qInUnit (hexChannel [c, d]) := by
  rw [qInUnit, hexChannel, jsParseIntHex_hex [c, d] (by simp) (by
    intro e he
    rcases List.mem_cons.mp he with rfl | he2
    · exact hc
    · rcases List.mem_cons.mp he2 with rfl | he3
      · exact hd
      · exact absurd he3 (List.not_mem_nil e))]
  refine ⟨(hexVal [c, d] : ℚ) / 255, rfl, ?_, ?_⟩
  · positivity
  · rw [div_le_one (by norm_num)]
    exact_mod_cast le_trans (hexVal_two_le hc hd) (by norm_num)

/-- C3 (counterexample): the channel captures `\d+` are not bounded by 255,
so `parseColor "rgb(999,0,0)"` has `r = 999/255 > 1`: not every component
of every parse lies in `[0, 1]`. -/
theorem parseColor_range_cex :
    (parseColor "rgb(999,0,0)".toList).r = some ((999 : ℚ) / 255) ∧
    ¬ ((999 : ℚ) / 255 ≤ 1) ∧
    ¬ colorInRange (parseColor "rgb(999,0,0)".toList) := by
  have hr : (parseColor "rgb(999,0,0)".toList).r = some ((999 : ℚ) / 255) := by
    with_unfolding_all decide
  have hgt : ¬ ((999 : ℚ) / 255 ≤ 1) := by norm_num
  refine ⟨hr, hgt, ?_⟩
  rintro ⟨⟨q, hq, -, h1⟩, -, -, -⟩
  rw [hr, Option.some.injEq] at hq
  exact hgt (hq ▸ h1)

/-- C3 (amended): every component of `parseColor`'s result lies in `[0, 1]`
provided the matched `rgb()`/`rgba()` channels are at most 255 and a present
alpha capture parses to a number in `[0, 1]`, and provided a stripped input
of length 3 or 6 consists of true hex digits; unrecognized inputs (the
fallback) always satisfy the bounds.  (The counterexample shows the bounds
fail without these hypotheses.) -/
lemma fallback_inRange : colorInRange fallbackColor :=
  ⟨⟨1, rfl, by norm_num, by norm_num⟩, ⟨89 / 100, rfl, by norm_num, by norm_num⟩,
    ⟨14 / 25, rfl, by norm_num, by norm_num⟩, ⟨1 / 2, rfl, by norm_num, by norm_num⟩⟩

/-- C3 (amended): every component of `parseColor`'s result lies in `[0, 1]`
provided the matched `rgb()`/`rgba()` channels are at most 255 and a present
alpha capture parses to a number in `[0, 1]`, and provided a stripped input
of length 3 or 6 consists of true hex digits; unrecognized inputs (the
fallback) always satisfy the bounds.  (The counterexample shows the bounds
fail without these hypotheses.) -/
theorem parseColor_range (s : List Char)
    (hrgb : ∀ m, findRgba s = some m →
      m.r ≤ 255 ∧ m.g ≤ 255 ∧ m.b ≤ 255 ∧
      ∀ t, m.alpha = some t →
        ∃ q, jsParseFloatDD t = some q ∧ 0 ≤ q ∧ q ≤ 1)
    (hhex : findRgba s = none →
      ((stripFirstHash s).length = 3 ∨ (stripFirstHash s).length = 6) →
      ∀ c ∈ stripFirstHash s, isHexDigitJs c = true) :
    colorInRange (parseColor s) := by
  cases hfind : findRgba s with
  | some m =>
    have hpc : parseColor s =
        { r := some ((m.r : ℚ) / 255), g := some ((m.g : ℚ) / 255)
          b := some ((m.b : ℚ) / 255)
          a := match m.alpha with
               | some t => jsParseFloatDD t
               | none => some 1 } := by
      unfold parseColor
      rw [hfind]
    rw [hpc]
    obtain ⟨h1, h2, h3, h4⟩ := hrgb m hfind
    have hchan : ∀ n : ℕ, n ≤ 255 → qInUnit (some ((n : ℚ) / 255)) := by
      intro n hn
      refine ⟨(n : ℚ) / 255, rfl, by positivity, ?_⟩
      rw [div_le_one (by norm_num)]
      exact_mod_cast hn
    refine ⟨hchan m.r h1, hchan m.g h2, hchan m.b h3, ?_⟩
    cases hal : m.alpha with
    | none => exact ⟨1, rfl, by norm_num, le_refl 1⟩
    | some t =>
      obtain ⟨q, hq, hq0, hq1⟩ := h4 t hal
      exact ⟨q, hq, hq0, hq1⟩
  | none =>
    have hpc : parseColor s =
        (if (stripFirstHash s).length = 3 then
          { r := hexChannel [(stripFirstHash s).getD 0 ' ', (stripFirstHash s).getD 0 ' ']
            g := hexChannel [(stripFirstHash s).getD 1 ' ', (stripFirstHash s).getD 1 ' ']
            b := hexChannel [(stripFirstHash s).getD 2 ' ', (stripFirstHash s).getD 2 ' ']
            a := some 1 }
        else if (stripFirstHash s).length = 6 then
          { r := hexChannel ((stripFirstHash s).take 2)
            g := hexChannel (((stripFirstHash s).drop 2).take 2)
            b := hexChannel (((stripFirstHash s).drop 4).take 2), a := some 1 }
        else fallbackColor) := by
      unfold parseColor
      rw [hfind]
    rw [hpc]
    have hhex' := hhex hfind
    cases hl : stripFirstHash s with
    | nil => exact fallback_inRange
    | cons c0 l0 =>
      cases l0 with
      | nil => exact fallback_inRange
      | cons c1 l1 =>
        cases l1 with
        | nil => exact fallback_inRange
        | cons c2 l2 =>
          cases l2 with
          | cons c3 l3 =>
            cases l3 with
            | nil => norm_num [List.length_cons]; exact fallback_inRange
            | cons c4 l4 =>
              cases l4 with
              | nil => norm_num [List.length_cons]; exact fallback_inRange
              | cons c5 l5 =>
                cases l5 with
                | cons c6 l6 => norm_num [List.length_cons]; exact fallback_inRange
                | nil =>
                  have hall := hhex' (Or.inr (by rw [hl]; rfl))
                  rw [hl] at hall
                  have hc0 := hall c0 (by simp)
                  have hc1 := hall c1 (by simp)
                  have hc2 := hall c2 (by simp)
                  have hc3 := hall c3 (by simp)
                  have hc4 := hall c4 (by simp)
                  have hc5 := hall c5 (by simp)
                  norm_num [List.length_cons]
                  exact ⟨hexChannel_inUnit hc0 hc1, hexChannel_inUnit hc2 hc3,
                    hexChannel_inUnit hc4 hc5, 1, rfl, by norm_num⟩
          | nil =>
            have hall := hhex' (Or.inl (by rw [hl]; rfl))
            rw [hl] at hall
            have hc0 := hall c0 (by simp)
            have hc1 := hall c1 (by simp)
            have hc2 := hall c2 (by simp)
            norm_num [List.length_cons]
            exact ⟨hexChannel_inUnit hc0 hc0, hexChannel_inUnit hc1 hc1,
              hexChannel_inUnit hc2 hc2, 1, rfl, by norm_num⟩

/-- Witness for C3: `"#abc"` (no rgb pattern, valid hex) parses with all
components in `[0, 1]`. -/
theorem parseColor_range_witness :
    colorInRange (parseColor "#abc".toList) := by
  have hnone : findRgba "#abc".toList = none := by decide
  refine parseColor_range "#abc".toList ?_ ?_
  · intro m hm
    rw [hnone] at hm
    exact Option.noConfusion hm
  · intro _ _
    decide

/-- `fitGo` never decreases the character count. -/
lemma fitGo_ge (font : List Char → ℚ → ℚ) (fontSize maxWidth : ℚ)
    (rem : List Char) :
    ∀ rest k, k ≤ fitGo font fontSize maxWidth rem k rest := by
  intro rest
  induction rest with
  | nil => intro k; exact le_refl k
  | cons c rs ih =>
    intro k
    unfold fitGo
    split
    · exact le_trans (Nat.le_succ k) (ih (k + 1))
    · exact le_refl k

/-- `fitGo` either returns its starting count unchanged or a count whose
prefix fits the budget (the last growth step was guarded by the fit test on
exactly that prefix). -/
lemma fitGo_spec (font : List Char → ℚ → ℚ) (fontSize maxWidth : ℚ)
    (rem : List Char) :
    ∀ rest k, fitGo font fontSize maxWidth rem k rest = k ∨
      font (rem.take (fitGo font fontSize maxWidth rem k rest)) fontSize ≤ maxWidth := by
  intro rest
  induction rest with
  | nil => intro k; exact Or.inl rfl
  | cons c rs ih =>
    intro k
    unfold fitGo
    split
    · next hfit =>
      rcases ih (k + 1) with heq | hle
      · rw [heq]
        exact Or.inr hfit
      · exact Or.inr hle
    · exact Or.inl rfl

/-- Every line pushed by the break-word loop, and the final `currentLine`
it leaves behind, either fits the budget or is a single character. -/
lemma breakWordGo_sound (font : List Char → ℚ → ℚ) (fontSize maxWidth : ℚ) :
    ∀ fuel rem, rem.length ≤ fuel →
      (∀ l ∈ (breakWordGo font fontSize maxWidth fuel rem).1,
        fitsOrChar font fontSize maxWidth l) ∧
      fitsOrChar font fontSize maxWidth (breakWordGo font fontSize maxWidth fuel rem).2 := by
  intro fuel
  induction fuel with
  | zero =>
    intro rem hlen
    have hnil : rem = [] := List.length_eq_zero.mp (Nat.le_zero.mp hlen)
    subst hnil
    exact ⟨fun l hl => absurd hl (List.not_mem_nil l),
      Or.inr (by simp [breakWordGo])⟩
  | succ fuel ih =>
    intro rem hlen
    cases rem with
    | nil =>
      exact ⟨fun l hl => absurd hl (List.not_mem_nil l),
        Or.inr (by simp [breakWordGo])⟩
    | cons c cs =>
      have hn1 : 1 ≤ fitGo font fontSize maxWidth (c :: cs) 1 ((c :: cs).drop 1) :=
        fitGo_ge font fontSize maxWidth (c :: cs) ((c :: cs).drop 1) 1
      have hchunk : fitsOrChar font fontSize maxWidth
          ((c :: cs).take (fitGo font fontSize maxWidth (c :: cs) 1 ((c :: cs).drop 1))) := by
        rcases fitGo_spec font fontSize maxWidth (c :: cs) ((c :: cs).drop 1) 1 with heq | hle
        · rw [heq]
          exact Or.inr (by simp)
        · exact Or.inl hle
      unfold breakWordGo
      dsimp only
      split
      · exact ⟨fun l hl => absurd hl (List.not_mem_nil l), hchunk⟩
      · next hrest =>
        have hlen2 : ((c :: cs).drop
            (fitGo font fontSize maxWidth (c :: cs) 1 ((c :: cs).drop 1))).length ≤ fuel := by
          rw [List.length_drop]
          simp only [List.length_cons] at hlen ⊢
          omega
        obtain ⟨hlines, hcur⟩ := ih _ hlen2
        refine ⟨?_, hcur⟩
        intro l hl
        rcases List.mem_cons.mp hl with rfl | hl2
        · exact hchunk
        · exact hlines l hl2

/-- Every line produced by the word loop either fits the budget or is a
single character, provided the incoming `currentLine` does. -/
lemma wrapWords_sound (font : List Char → ℚ → ℚ) (fontSize maxWidth : ℚ) :
    ∀ ws cur, fitsOrChar font fontSize maxWidth cur →
      ∀ l ∈ wrapWords font fontSize maxWidth ws cur,
        fitsOrChar font fontSize maxWidth l := by
  intro ws
  induction ws with
  | nil =>
    intro cur hcur l hl
    unfold wrapWords at hl
    split at hl
    · exact absurd hl (List.not_mem_nil l)
    · rcases List.mem_singleton.mp hl with rfl
      exact hcur
  | cons w ws ih =>
    intro cur hcur l hl
    unfold wrapWords at hl
    by_cases hce : cur = []
    · simp only [if_pos hce] at hl
      split at hl
      · next hfit => exact ih _ (Or.inl hfit) l hl
      · next hnofit =>
        split at hl
        · next hbig =>
          rcases List.mem_append.mp hl with hl1 | hl2
          · rcases List.mem_append.mp hl1 with hlf | hlb
            · exact absurd hlf (List.not_mem_nil l)
            · exact (breakWordGo_sound font fontSize maxWidth w.length w (le_refl _)).1 l hlb
          · exact ih _ (breakWordGo_sound font fontSize maxWidth w.length w (le_refl _)).2 l hl2
        · next hsmall =>
          rcases List.mem_append.mp hl with hlf | hl2
          · exact absurd hlf (List.not_mem_nil l)
          · exact ih _ (Or.inl (le_of_not_lt hsmall)) l hl2
    · simp only [if_neg hce] at hl
      split at hl
      · next hfit => exact ih _ (Or.inl hfit) l hl
      · next hnofit =>
        split at hl
        · next hbig =>
          rcases List.mem_append.mp hl with hl1 | hl2
          · rcases List.mem_append.mp hl1 with hlf | hlb
            · rcases List.mem_singleton.mp hlf with rfl
              exact hcur
            · exact (breakWordGo_sound font fontSize maxWidth w.length w (le_refl _)).1 l hlb
          · exact ih _ (breakWordGo_sound font fontSize maxWidth w.length w (le_refl _)).2 l hl2
        · next hsmall =>
          rcases List.mem_append.mp hl with hlf | hl2
          · rcases List.mem_singleton.mp hlf with rfl
            exact hcur
          · exact ih _ (Or.inl (le_of_not_lt hsmall)) l hl2

/-- C1 (amended): every line produced by `wrapText` either satisfies
`measure(line) ≤ maxWidth` or consists of at most one character (a single
glyph that alone exceeds the budget, or the empty line emitted for a blank
paragraph).  In particular every line with two or more characters — every
line that could be broken further — fits the budget. -/
theorem wrapText_width_guarantee (font : List Char → ℚ → ℚ)
    (fontSize maxWidth : ℚ) (text : List Char) :
    ∀ line ∈ wrapText text font fontSize maxWidth,
      font line fontSize ≤ maxWidth ∨ line.length ≤ 1 := by
  intro line hline
  unfold wrapText at hline
  split at hline
  · exact absurd hline (List.not_mem_nil line)
  · rw [List.mem_flatMap] at hline
    obtain ⟨para, -, hpara⟩ := hline
    unfold wrapParagraph at hpara
    split at hpara
    · rcases List.mem_singleton.mp hpara with rfl
      exact Or.inr (by simp)
    · exact wrapWords_sound font fontSize maxWidth _ [] (Or.inr (by simp)) line hpara

/-- Witness for C1: wrapping `"WW"` with two-unit-wide glyphs into a budget
of 1 produces the line `"W"`, which indeed is a single character (and does
not fit). -/
theorem wrapText_width_guarantee_witness :
    doubleFont "W".toList 1 ≤ 1 ∨ "W".toList.length ≤ 1 :=
  wrapText_width_guarantee doubleFont 1 1 "WW".toList "W".toList
    (by with_unfolding_all decide)

/-- C1 (counterexample): for the token `"WW"` with two-unit-wide glyphs and
budget 1 the wrapped output is `["W", "W"]`; the line `"W"` exceeds the
budget yet is not equal to the original unbreakable token `"WW"`, so an
over-budget line need not equal the token it came from. -/
theorem wrapText_width_claim_cex :
    wrapText "WW".toList doubleFont 1 1 = ["W".toList, "W".toList] ∧
    ¬ (doubleFont "W".toList 1 ≤ 1) ∧
    "W".toList ≠ "WW".toList := by
  refine ⟨by with_unfolding_all decide, by with_unfolding_all decide, by decide⟩

/-- `joinSp` on a cons with nonempty tail. -/
lemma joinSp_cons (w : List Char) (l : List (List Char)) (hl : l ≠ []) :
    joinSp (w :: l) = w ++ ' ' :: joinSp l := by
  cases l with
  | nil => exact absurd rfl hl
  | cons x xs => rfl

/-- Merging the first two words of a join into one space-separated word
does not change the join. -/
lemma joinSp_merge (a b : List Char) (l : List (List Char)) :
    joinSp ((a ++ ' ' :: b) :: l) = joinSp (a :: b :: l) := by
  cases l with
  | nil => rfl
  | cons x xs =>
    rw [joinSp_cons _ (x :: xs) (by simp), joinSp_cons a (b :: x :: xs) (by simp),
      joinSp_cons b (x :: xs) (by simp), List.append_assoc, List.cons_append]

/-- The join of a nonempty prefix of the word list is a prefix of the whole
join: some suffix completes it. -/
lemma joinSp_take_extends :
    ∀ (words : List (List Char)) (k : ℕ), 1 ≤ k →
      ∃ suff, joinSp (words.take k) ++ suff = joinSp words := by
  intro words
  induction words with
  | nil => intro k _; exact ⟨[], by simp [joinSp]⟩
  | cons w ws ih =>
    intro k hk
    cases ws with
    | nil =>
      refine ⟨[], ?_⟩
      cases k with
      | zero => omega
      | succ k' => simp [joinSp]
    | cons x xs =>
      cases k with
      | zero => omega
      | succ k' =>
        cases Nat.eq_or_lt_of_le hk with
        | inl h1 =>
          have hk0 : k' = 0 := by omega
          subst hk0
          refine ⟨' ' :: joinSp (x :: xs), ?_⟩
          rw [List.take_succ_cons, List.take_zero]
          rw [joinSp_cons w (x :: xs) (by simp)]
          rfl
        | inr h1 =>
          have hk1 : 1 ≤ k' := by omega
          obtain ⟨suff, hsuff⟩ := ih k' hk1
          refine ⟨suff, ?_⟩
          have htk : (x :: xs).take k' ≠ [] := by
            cases k' with
            | zero => omega
            | succ k2 => simp
          rw [List.take_succ_cons, joinSp_cons w _ htk,
            joinSp_cons w (x :: xs) (by simp), List.append_assoc,
            List.cons_append, hsuff]

/-- If the current line is nonempty and every word-join prefix fits the
budget, the greedy loop accumulates everything into one line. -/
lemma wrapWords_all_fit (font : List Char → ℚ → ℚ) (fontSize maxWidth : ℚ) :
    ∀ (ws : List (List Char)) (cur : List Char), cur ≠ [] →
      (∀ k, k ≤ ws.length → font (joinSp (cur :: ws.take k)) fontSize ≤ maxWidth) →
      wrapWords font fontSize maxWidth ws cur = [joinSp (cur :: ws)] := by
  intro ws
  induction ws with
  | nil =>
    intro cur hcur _
    unfold wrapWords
    rw [if_neg hcur]
    rfl
  | cons w ws ih =>
    intro cur hcur hfits
    unfold wrapWords
    rw [if_neg hcur]
    have htest : font (cur ++ ' ' :: w) fontSize ≤ maxWidth := by
      have h1 := hfits 1 (by simp)
      rw [List.take_succ_cons, List.take_zero] at h1
      rw [joinSp_cons cur [w] (by simp)] at h1
      exact h1
    rw [if_pos htest]
    have hne : cur ++ ' ' :: w ≠ [] := by simp
    rw [ih (cur ++ ' ' :: w) hne ?_]
    · rw [joinSp_merge]
    · intro k hkl
      have h2 := hfits (k + 1) (by simpa using Nat.succ_le_succ hkl)
      rw [List.take_succ_cons] at h2
      rw [joinSp_merge]
      rw [joinSp_cons cur _ (by simp)] at h2 ⊢
      exact h2

/-- `splitRunsGo` always produces at least one field. -/
lemma splitRunsGo_ne_nil (p : Char → Bool) :
    ∀ (s cur : List Char) (b : Bool), splitRunsGo p s cur b ≠ [] := by
  intro s
  induction s with
  | nil => intro cur b; simp [splitRunsGo]
  | cons c cs ih =>
    intro cur b
    unfold splitRunsGo
    split
    · split
      · exact ih [] true
      · simp
    · exact ih (cur ++ [c]) false

/-- Splitting an all-separator string always yields an empty field. -/
lemma all_sep_mem_splitRunsGo (p : Char → Bool) :
    ∀ (s : List Char) (b : Bool), s.all p = true → [] ∈ splitRunsGo p s [] b := by
  intro s
  induction s with
  | nil => intro b _; simp [splitRunsGo]
  | cons c cs ih =>
    intro b hall
    rw [List.all_cons, Bool.and_eq_true] at hall
    unfold splitRunsGo
    rw [if_pos hall.1]
    split
    · exact ih true hall.2
    · exact List.mem_cons_self _ _

/-- A newline-free string is a single paragraph. -/
lemma splitNl_no_newline :
    ∀ t : List Char, '\n' ∉ t → splitNl t = [t] := by
  intro t
  induction t with
  | nil => intro _; rfl
  | cons c cs ih =>
    intro h
    have hc : ¬ c = '\n' := fun he => h (he ▸ List.mem_cons_self c cs)
    have hcs : '\n' ∉ cs := fun hm => h (List.mem_cons_of_mem c hm)
    unfold splitNl
    rw [if_neg hc, ih hcs]

/-- C7 (counterexample): the all-whitespace text `" "` has no newline and
fits any positive budget (one unit wide here), yet `wrapText` returns one
*empty* line, not a line equal to the original text: blank paragraphs are
normalized to `""`, and in general leading/trailing/multiple whitespace is
not preserved. -/
theorem wrapText_prefit_cex :
    wrapText " ".toList lenFont 1 5 = [[]] ∧
    lenFont " ".toList 1 ≤ 5 ∧
    '\n' ∉ " ".toList ∧
    ([] : List Char) ≠ " ".toList := by
  refine ⟨by with_unfolding_all decide, by with_unfolding_all decide, by decide, by decide⟩

/-- C7 (amended): if the text has no newline, its whitespace split has no
empty fields and rejoins with single spaces to the text itself (no
leading/trailing whitespace, single-space separators), the measure is
monotone under appending, `measure(text) ≤ maxWidth` and `maxWidth > 0`,
then `wrapText` returns exactly one line equal to the text. -/
theorem wrapText_prefit (font : List Char → ℚ → ℚ) (fontSize maxWidth : ℚ)
    (text : List Char)
    (hne : [] ∉ splitRuns jsIsSpace text)
    (hjoin : joinSp (splitRuns jsIsSpace text) = text)
    (hmono : ∀ u v : List Char, font u fontSize ≤ font (u ++ v) fontSize)
    (hfit : font text fontSize ≤ maxWidth)
    (hpos : 0 < maxWidth)
    (hnl : '\n' ∉ text) :
    wrapText text font fontSize maxWidth = [text] := by
  have htext : text ≠ [] := by
    intro h
    subst h
    exact hne (by decide)
  have hblank : ¬ text.all jsIsSpace = true := by
    intro h
    exact hne (all_sep_mem_splitRunsGo jsIsSpace text false h)
  have hprefix : ∀ k, 1 ≤ k →
      font (joinSp ((splitRuns jsIsSpace text).take k)) fontSize ≤ maxWidth := by
    intro k hk
    obtain ⟨suff, hsuff⟩ := joinSp_take_extends (splitRuns jsIsSpace text) k hk
    calc font (joinSp ((splitRuns jsIsSpace text).take k)) fontSize
        ≤ font (joinSp ((splitRuns jsIsSpace text).take k) ++ suff) fontSize :=
          hmono _ suff
      _ = font text fontSize := by rw [hsuff, hjoin]
      _ ≤ maxWidth := hfit
  unfold wrapText
  rw [if_neg (by push_neg; exact ⟨htext, hpos⟩)]
  rw [splitNl_no_newline text hnl]
  rw [List.flatMap_cons, List.flatMap_nil, List.append_nil]
  unfold wrapParagraph
  rw [if_neg hblank]
  cases hw : splitRuns jsIsSpace text with
  | nil => exact absurd hw (splitRunsGo_ne_nil jsIsSpace text [] false)
  | cons w ws =>
    have hwne : w ≠ [] := by
      intro h
      subst h
      refine hne ?_
      rw [hw]
      exact List.mem_cons_self [] ws
    unfold wrapWords
    rw [if_pos rfl]
    have hwfit : font w fontSize ≤ maxWidth := by
      have h1 := hprefix 1 (le_refl 1)
      rw [hw, List.take_succ_cons, List.take_zero] at h1
      exact h1
    rw [if_pos hwfit]
    rw [wrapWords_all_fit font fontSize maxWidth ws w hwne ?_]
    · rw [← hw, hjoin]
    · intro k hkl
      have h2 := hprefix (k + 1) (by omega)
      rw [hw, List.take_succ_cons] at h2
      exact h2

/-- Witness for C7: `"hello world"` with one-unit-wide glyphs and budget 11
wraps to exactly itself. -/
theorem wrapText_prefit_witness :
    wrapText "hello world".toList lenFont 1 11 = ["hello world".toList] := by
  refine wrapText_prefit lenFont 1 11 "hello world".toList ?_ ?_ ?_ ?_ ?_ ?_
  · with_unfolding_all decide
  · with_unfolding_all decide
  · intro u v
    unfold lenFont
    have : (u.length : ℚ) ≤ ((u ++ v).length : ℚ) := by
      rw [List.length_append]
      push_cast
      linarith [Nat.cast_nonneg (α := ℚ) v.length]
    exact this
  · with_unfolding_all decide
  · norm_num
  · decide

/-! ### Grouping lemmas -/

/-- `pageFilter` on nil. -/
lemma pageFilter_nil (p : ℤ) : pageFilter p [] = [] := rfl

/-- `pageFilter` keeps a matching head. -/
lemma pageFilter_cons_self {p : ℤ} {h : ExportableHighlight}
    (t : List ExportableHighlight) (hp : pageOf h = p) :
    pageFilter p (h :: t) = h :: pageFilter p t := by
  unfold pageFilter
  rw [List.filter_cons, if_pos (by simp [hp])]

/-- `pageFilter` drops a non-matching head. -/
lemma pageFilter_cons_ne {p : ℤ} {h : ExportableHighlight}
    (t : List ExportableHighlight) (hp : pageOf h ≠ p) :
    pageFilter p (h :: t) = pageFilter p t := by
  unfold pageFilter
  rw [List.filter_cons, if_neg (by simp [hp])]

/-- Inserting a record whose page is already a key appends it to that
key's group (keys with no duplicates). -/
lemma insertGroup_of_mem :
    ∀ (m : List (ℤ × List ExportableHighlight)) (h : ExportableHighlight),
      (m.map Prod.fst).Nodup → pageOf h ∈ m.map Prod.fst →
      insertGroup m h =
        m.map (fun pg => if pg.1 = pageOf h then (pg.1, pg.2 ++ [h]) else pg) := by
  intro m
  induction m with
  | nil => intro h _ hmem; exact absurd hmem (List.not_mem_nil _)
  | cons qg rest ih =>
    intro h hnd hmem
    obtain ⟨q, g⟩ := qg
    rw [List.map_cons, List.nodup_cons] at hnd
    rw [List.map_cons] at hmem
    unfold insertGroup
    rw [List.map_cons]
    by_cases hq : q = pageOf h
    · rw [if_pos hq]
      dsimp only
      rw [if_pos hq]
      have hrest : rest.map
          (fun pg => if pg.1 = pageOf h then (pg.1, pg.2 ++ [h]) else pg) = rest := by
        have hpt : ∀ pg ∈ rest,
            (if pg.1 = pageOf h then (pg.1, pg.2 ++ [h]) else pg) = pg := by
          intro pg hpg
          rw [if_neg]
          intro hc
          refine hnd.1 ?_
          have hm1 : pg.1 ∈ rest.map Prod.fst := List.mem_map_of_mem Prod.fst hpg
          rw [hc, ← hq] at hm1
          exact hm1
        rw [List.map_congr_left hpt]
        exact List.map_id' rest
      rw [hrest]
    · rw [if_neg hq]
      dsimp only
      rw [if_neg hq]
      have hmem2 : pageOf h ∈ rest.map Prod.fst := by
        rcases List.mem_cons.mp hmem with hq2 | hmem2
        · exact absurd hq2.symm hq
        · exact hmem2
      rw [ih h hnd.2 hmem2]

/-- Inserting a record with a fresh page number creates a new group at the
end of the map. -/
lemma insertGroup_of_not_mem :
    ∀ (m : List (ℤ × List ExportableHighlight)) (h : ExportableHighlight),
      pageOf h ∉ m.map Prod.fst →
      insertGroup m h = m ++ [(pageOf h, [h])] := by
  intro m
  induction m with
  | nil => intro h _; rfl
  | cons qg rest ih =>
    intro h hmem
    obtain ⟨q, g⟩ := qg
    rw [List.map_cons] at hmem
    have hq : ¬ q = pageOf h := fun hc => hmem (hc ▸ List.mem_cons_self _ _)
    unfold insertGroup
    rw [if_neg hq, ih h (fun hm => hmem (List.mem_cons_of_mem _ hm)), List.cons_append]

/-- `dedupFirstGo` only depends on the seen-set through membership. -/
lemma dedupFirstGo_congr :
    ∀ (l s1 s2 : List ℤ), (∀ x : ℤ, x ∈ s1 ↔ x ∈ s2) →
      dedupFirstGo s1 l = dedupFirstGo s2 l := by
  intro l
  induction l with
  | nil => intro s1 s2 _; rfl
  | cons p ps ih =>
    intro s1 s2 hiff
    unfold dedupFirstGo
    by_cases hp : p ∈ s1
    · rw [if_pos hp, if_pos ((hiff p).mp hp)]
      exact ih s1 s2 hiff
    · rw [if_neg hp, if_neg (fun hc => hp ((hiff p).mpr hc))]
      rw [ih (p :: s1) (p :: s2) ?_]
      intro x
      simp only [List.mem_cons]
      exact or_congr Iff.rfl (hiff x)

/-- Keys already seen are never emitted. -/
lemma dedupFirstGo_not_mem_seen :
    ∀ (l seen : List ℤ) (q : ℤ), q ∈ dedupFirstGo seen l → q ∉ seen := by
  intro l
  induction l with
  | nil => intro seen q hq; exact absurd hq (List.not_mem_nil q)
  | cons p ps ih =>
    intro seen q hq
    unfold dedupFirstGo at hq
    split at hq
    · exact ih seen q hq
    · next hp =>
      rcases List.mem_cons.mp hq with rfl | hq2
      · exact hp
      · intro hqs
        exact ih (p :: seen) q hq2 (List.mem_cons_of_mem p hqs)

/-- Deduplicated keys have no duplicates. -/
lemma dedupFirstGo_nodup :
    ∀ (l seen : List ℤ), (dedupFirstGo seen l).Nodup := by
  intro l
  induction l with
  | nil => intro seen; exact List.nodup_nil
  | cons p ps ih =>
    intro seen
    unfold dedupFirstGo
    split
    · exact ih seen
    · rw [List.nodup_cons]
      refine ⟨?_, ih (p :: seen)⟩
      intro hp
      exact dedupFirstGo_not_mem_seen ps (p :: seen) p hp (List.mem_cons_self _ _)

/-- Membership in the deduplicated keys. -/
lemma dedupFirstGo_mem_iff :
    ∀ (l seen : List ℤ) (q : ℤ), q ∈ dedupFirstGo seen l ↔ q ∈ l ∧ q ∉ seen := by
  intro l
  induction l with
  | nil =>
    intro seen q
    simp [dedupFirstGo]
  | cons p ps ih =>
    intro seen q
    unfold dedupFirstGo
    split
    · next hp =>
      rw [ih seen q]
      simp only [List.mem_cons]
      by_cases hqp : q = p
      · subst hqp
        simp [hp]
      · simp [hqp]
    · next hp =>
      simp only [List.mem_cons, ih (p :: seen) q]
      by_cases hqp : q = p
      · simp [hqp, hp]
      · simp [hqp]

/-- Skipping an already-seen key. -/
lemma dedupFirstGo_cons_of_mem {seen : List ℤ} {p : ℤ} (hp : p ∈ seen)
    (ps : List ℤ) : dedupFirstGo seen (p :: ps) = dedupFirstGo seen ps := by
  simp only [dedupFirstGo]
  rw [if_pos hp]

/-- Emitting a fresh key. -/
lemma dedupFirstGo_cons_of_not_mem {seen : List ℤ} {p : ℤ} (hp : p ∉ seen)
    (ps : List ℤ) :
    dedupFirstGo seen (p :: ps) = p :: dedupFirstGo (p :: seen) ps := by
  simp only [dedupFirstGo]
  rw [if_neg hp]

/-- The `groupByPage` fold, started from an arbitrary duplicate-free map:
existing groups are extended by their matching records, and the remaining
records form fresh groups in first-encountered page order. -/
lemma foldl_insertGroup_eq :
    ∀ (hs : List ExportableHighlight) (m : List (ℤ × List ExportableHighlight)),
      (m.map Prod.fst).Nodup →
      hs.foldl insertGroup m =
        m.map (fun pg => (pg.1, pg.2 ++ pageFilter pg.1 hs)) ++
        (dedupFirstGo (m.map Prod.fst) (hs.map pageOf)).map
          (fun p => (p, pageFilter p hs)) := by
  intro hs
  induction hs with
  | nil =>
    intro m _
    rw [List.foldl_nil, List.map_nil]
    unfold dedupFirstGo
    rw [List.map_nil, List.append_nil]
    have hpt : ∀ pg ∈ m, (pg.1, pg.2 ++ pageFilter pg.1 []) = pg := by
      intro pg _
      rw [pageFilter_nil, List.append_nil]
    rw [List.map_congr_left hpt]
    exact (List.map_id' m).symm
  | cons h t ih =>
    intro m hnd
    rw [List.foldl_cons]
    by_cases hmem : pageOf h ∈ m.map Prod.fst
    · have hins := insertGroup_of_mem m h hnd hmem
      have hkeys : (insertGroup m h).map Prod.fst = m.map Prod.fst := by
        rw [hins, List.map_map]
        have hpt : ∀ pg ∈ m,
            (Prod.fst ∘ fun pg => if pg.1 = pageOf h then (pg.1, pg.2 ++ [h]) else pg) pg
              = Prod.fst pg := by
          intro pg _
          by_cases hc : pg.1 = pageOf h
          · simp [Function.comp, hc]
          · simp [Function.comp, hc]
        rw [List.map_congr_left hpt]
      have hnd2 : ((insertGroup m h).map Prod.fst).Nodup := by
        rw [hkeys]; exact hnd
      rw [ih (insertGroup m h) hnd2, hkeys]
      rw [List.map_cons, dedupFirstGo_cons_of_mem hmem]
      congr 1
      · rw [hins, List.map_map]
        refine List.map_congr_left ?_
        intro pg hpg
        dsimp only [Function.comp]
        by_cases hc : pg.1 = pageOf h
        · rw [if_pos hc]
          dsimp only
          rw [hc, pageFilter_cons_self t rfl, List.append_assoc]
          rfl
        · rw [if_neg hc]
          rw [pageFilter_cons_ne t (fun he => hc he.symm)]
      · refine List.map_congr_left ?_
        intro p hp
        have hne : pageOf h ≠ p := by
          intro he
          exact dedupFirstGo_not_mem_seen _ _ p hp (he ▸ hmem)
        rw [pageFilter_cons_ne t hne]
    · have hins := insertGroup_of_not_mem m h hmem
      have hkeys : (insertGroup m h).map Prod.fst = m.map Prod.fst ++ [pageOf h] := by
        rw [hins, List.map_append]
        rfl
      have hnd2 : ((insertGroup m h).map Prod.fst).Nodup := by
        rw [hkeys, List.nodup_append]
        refine ⟨hnd, List.nodup_singleton _, ?_⟩
        intro x hx hx2
        rw [List.mem_singleton] at hx2
        exact hmem (hx2 ▸ hx)
      rw [ih (insertGroup m h) hnd2, hkeys, hins]
      simp only [List.map_append, List.map_cons, List.map_nil]
      rw [dedupFirstGo_cons_of_not_mem hmem]
      rw [dedupFirstGo_congr (t.map pageOf) (m.map Prod.fst ++ [pageOf h])
        (pageOf h :: m.map Prod.fst)
        (by intro x; simp [List.mem_append, List.mem_cons, or_comm])]
      rw [List.map_cons]
      simp only [List.append_assoc, List.cons_append, List.nil_append]
      congr 1
      · refine List.map_congr_left ?_
        intro pg hpg
        have hne : pageOf h ≠ pg.1 := by
          intro he
          exact hmem (he ▸ List.mem_map_of_mem Prod.fst hpg)
        rw [pageFilter_cons_ne t hne]
      · congr 1
        · dsimp only
          rw [pageFilter_cons_self t rfl]
        · refine List.map_congr_left ?_
          intro p hp
          have hne : pageOf h ≠ p := by
            intro he
            exact dedupFirstGo_not_mem_seen _ _ p hp (he ▸ List.mem_cons_self _ _)
          rw [pageFilter_cons_ne t hne]

/-- `groupByPage` in closed form: the page keys in first-encountered order,
each carrying the input records of that page in input order. -/
lemma groupByPage_eq (hs : List ExportableHighlight) :
    groupByPage hs =
      (dedupKeepFirst (hs.map pageOf)).map (fun p => (p, pageFilter p hs)) := by
  unfold groupByPage dedupKeepFirst
  rw [foldl_insertGroup_eq hs [] (by simp)]
  rfl

/-! ### Export orchestrator lemmas -/

/-- `flatMap` after `map` composes. -/
lemma flatMap_map_comp {α β γ : Type} (f : α → β) (g : β → List γ) :
    ∀ l : List α, (l.map f).flatMap g = l.flatMap (fun a => g (f a)) := by
  intro l
  induction l with
  | nil => rfl
  | cons a as ih => rw [List.map_cons, List.flatMap_cons, List.flatMap_cons, ih]

/-- Pointwise-equal functions give equal `flatMap`s. -/
lemma flatMap_congr_mem {α β : Type} :
    ∀ (l : List α) (f g : α → List β), (∀ a ∈ l, f a = g a) →
      l.flatMap f = l.flatMap g := by
  intro l
  induction l with
  | nil => intro f g _; rfl
  | cons a as ih =>
    intro f g h
    rw [List.flatMap_cons, List.flatMap_cons, h a (List.mem_cons_self _ _),
      ih f g (fun b hb => h b (List.mem_cons_of_mem a hb))]

/-- The drawing commands of the page loop: each group contributes its
`drawsFor` segment, in group order. -/
lemma processGroups_draws (doc : PdfDoc) (o : ExportPdfOptions)
    (font : List Char → ℚ → ℚ) (embedOk : List Char → Bool) (total : ℕ) :
    ∀ (gs : List (ℤ × List ExportableHighlight)) (cur : ℕ),
      (processGroups doc o font embedOk total gs cur).draws =
        gs.flatMap (fun g =>
          match pageAt doc g.1 with
          | none => []
          | some pg => (g.2.flatMap (renderHighlight embedOk font pg.1 pg.2 o)).map
              (fun c => (g.1, c))) := by
  intro gs
  induction gs with
  | nil => intro cur; rfl
  | cons g rest ih =>
    intro cur
    obtain ⟨pn, ghs⟩ := g
    rw [List.flatMap_cons]
    cases hpa : pageAt doc pn with
    | none =>
      simp only [processGroups, hpa]
      rw [ih cur, List.nil_append]
    | some pg =>
      simp only [processGroups, hpa]
      rw [ih (cur + 1)]

/-- The progress calls of the page loop: one call per group whose page
resolves, counting up from `cur + 1`. -/
lemma processGroups_progress (doc : PdfDoc) (o : ExportPdfOptions)
    (font : List Char → ℚ → ℚ) (embedOk : List Char → Bool) (total : ℕ) :
    ∀ (gs : List (ℤ × List ExportableHighlight)) (cur : ℕ),
      (processGroups doc o font embedOk total gs cur).progress =
        (List.range ((gs.filter (fun g => (pageAt doc g.1).isSome)).length)).map
          (fun i => (cur + i + 1, total)) := by
  intro gs
  induction gs with
  | nil => intro cur; rfl
  | cons g rest ih =>
    intro cur
    obtain ⟨pn, ghs⟩ := g
    rw [List.filter_cons]
    cases hpa : pageAt doc pn with
    | none =>
      simp only [processGroups, hpa, Option.isSome_none, Bool.false_eq_true,
        if_false]
      exact ih cur
    | some pg =>
      simp only [processGroups, hpa, Option.isSome_some, if_true]
      rw [ih (cur + 1), List.length_cons, List.range_succ_eq_map, List.map_cons,
        List.map_map]
      congr 1
      refine List.map_congr_left ?_
      intro i _
      have harith : cur + 1 + i + 1 = cur + (i + 1) + 1 := by omega
      simp only [Function.comp, Nat.succ_eq_add_one, harith]

/-- The export's drawing commands in closed form: iterate the distinct page
numbers in first-encountered order; each contributes its group's renders in
input order (skipped silently when the page does not resolve). -/
lemma exportPdf_draws_eq (doc : PdfDoc) (hs : List ExportableHighlight)
    (o : ExportPdfOptions) (font : List Char → ℚ → ℚ)
    (embedOk : List Char → Bool) :
    (exportPdf doc hs o font embedOk).draws =
      (dedupKeepFirst (hs.map pageOf)).flatMap (drawsFor doc o font embedOk hs) := by
  unfold exportPdf
  rw [processGroups_draws, groupByPage_eq, flatMap_map_comp]
  rfl

/-- C8: grouping preserves order on both levels: `groupByPage` maps each
first-encountered page number (in input encounter order, not numeric order)
to exactly the input records of that page in input order, and the export's
drawing commands are the concatenation of the per-group renders in that
order — so for records A before B on the same page, A's commands are issued
before B's. -/
theorem exportPdf_order (doc : PdfDoc) (hs : List ExportableHighlight)
    (o : ExportPdfOptions) (font : List Char → ℚ → ℚ)
    (embedOk : List Char → Bool) :
    groupByPage hs =
      (dedupKeepFirst (hs.map pageOf)).map (fun p => (p, pageFilter p hs)) ∧
    (exportPdf doc hs o font embedOk).draws =
      (dedupKeepFirst (hs.map pageOf)).flatMap (drawsFor doc o font embedOk hs) :=
  ⟨groupByPage_eq hs, exportPdf_draws_eq doc hs o font embedOk⟩

/-- C6 (amended): the progress callback is invoked once per page group
whose page number resolves to an existing page (groups with no matching
page are skipped entirely, including their callback), with first components
1, 2, 3, … (1-indexed, strictly increasing) and second component the number
of distinct page numbers among the input records. -/
theorem exportPdf_progress_spec (doc : PdfDoc) (hs : List ExportableHighlight)
    (o : ExportPdfOptions) (font : List Char → ℚ → ℚ)
    (embedOk : List Char → Bool) :
    (exportPdf doc hs o font embedOk).progress =
      (List.range
          (((groupByPage hs).filter (fun g => (pageAt doc g.1).isSome)).length)).map
        (fun i => (i + 1, (groupByPage hs).length)) := by
  unfold exportPdf
  rw [processGroups_progress]
  refine List.map_congr_left ?_
  intro i _
  rw [Nat.zero_add]

/-- C6 (counterexample): with records on pages 1 and 5 of a one-page
document there are two page groups, but the callback fires only once, with
`(1, 2)` — the group with no matching page is skipped together with its
callback, so the callback is not invoked once per page group. -/
theorem exportPdf_progress_cex :
    (exportPdf onePageDoc [areaRecordP1, areaRecordP5] noOptions lenFont
        noEmbed).progress = [(1, 2)] ∧
    (groupByPage [areaRecordP1, areaRecordP5]).length = 2 ∧
    ((exportPdf onePageDoc [areaRecordP1, areaRecordP5] noOptions lenFont
        noEmbed).progress).length ≠
      (groupByPage [areaRecordP1, areaRecordP5]).length := by
  refine ⟨by with_unfolding_all decide, by with_unfolding_all decide,
    by with_unfolding_all decide⟩

/-- Commands a page group emits are tagged with that group's page. -/
lemma drawsFor_fst (doc : PdfDoc) (o : ExportPdfOptions)
    (font : List Char → ℚ → ℚ) (embedOk : List Char → Bool)
    (hs : List ExportableHighlight) (q : ℤ) :
    ∀ pc ∈ drawsFor doc o font embedOk hs q, pc.1 = q := by
  intro pc hpc
  unfold drawsFor at hpc
  split at hpc
  · exact absurd hpc (List.not_mem_nil pc)
  · obtain ⟨c, -, rfl⟩ := List.mem_map.mp hpc
    rfl

/-- Filtering a keyed concatenation by one key selects that key's segment
(keys without duplicates, segments tagged by their key). -/
lemma flatMap_filter_fst {F : ℤ → List (ℤ × DrawCmd)}
    (hF : ∀ q, ∀ pc ∈ F q, pc.1 = q) (p : ℤ) :
    ∀ l : List ℤ, l.Nodup →
      ((l.flatMap F).filter (fun pc => pc.1 = p)) = if p ∈ l then F p else [] := by
  intro l
  induction l with
  | nil =>
    intro _
    rw [if_neg (List.not_mem_nil p)]
    rfl
  | cons q rest ih =>
    intro hnd
    rw [List.nodup_cons] at hnd
    rw [List.flatMap_cons, List.filter_append, ih hnd.2]
    by_cases hqp : q = p
    · subst hqp
      rw [if_pos (List.mem_cons_self _ _), if_neg hnd.1]
      rw [List.append_nil]
      refine List.filter_eq_self.mpr ?_
      intro pc hpc
      simp [hF q pc hpc]
    · have h1 : (F q).filter (fun pc => pc.1 = p) = [] := by
        refine List.filter_eq_nil.mpr ?_
        intro pc hpc
        simp [hF q pc hpc, hqp]
      rw [h1, List.nil_append]
      by_cases hp : p ∈ rest
      · rw [if_pos hp, if_pos (List.mem_cons_of_mem q hp)]
      · rw [if_neg hp, if_neg ?_]
        intro hc
        rcases List.mem_cons.mp hc with he | he
        · exact hqp he.symm
        · exact hp he

/-- A page number occurring in no record has an empty group. -/
lemma pageFilter_eq_nil {p : ℤ} {hs : List ExportableHighlight}
    (hp : p ∉ hs.map pageOf) : pageFilter p hs = [] := by
  refine List.filter_eq_nil.mpr ?_
  intro h hh
  simp only [decide_eq_true_eq]
  intro he
  exact hp (he ▸ List.mem_map_of_mem pageOf hh)

/-- C9: a record whose page number has no matching page in the document is
skipped without aborting: the (total) export issues no command on that
record's page at all, and the commands landing on each other page are
exactly the full renders of that page's group — every other record still
renders. -/
theorem exportPdf_graceful_skip (doc : PdfDoc) (hs : List ExportableHighlight)
    (o : ExportPdfOptions) (font : List Char → ℚ → ℚ)
    (embedOk : List Char → Bool) (h : ExportableHighlight)
    (hmem : h ∈ hs) (hbad : pageAt doc (pageOf h) = none) :
    (∀ pc ∈ (exportPdf doc hs o font embedOk).draws, pc.1 ≠ pageOf h) ∧
    (∀ p : ℤ, ((exportPdf doc hs o font embedOk).draws.filter
        (fun pc => pc.1 = p)) = drawsFor doc o font embedOk hs p) := by
  constructor
  · intro pc hpc
    rw [exportPdf_draws_eq] at hpc
    obtain ⟨q, -, hq2⟩ := List.mem_flatMap.mp hpc
    rw [drawsFor_fst doc o font embedOk hs q pc hq2]
    intro he
    rw [he] at hq2
    unfold drawsFor at hq2
    rw [hbad] at hq2
    exact absurd hq2 (List.not_mem_nil pc)
  · intro p
    rw [exportPdf_draws_eq]
    rw [flatMap_filter_fst (drawsFor_fst doc o font embedOk hs) p
      (dedupKeepFirst (hs.map pageOf)) (dedupFirstGo_nodup _ [])]
    by_cases hp : p ∈ dedupKeepFirst (hs.map pageOf)
    · rw [if_pos hp]
    · rw [if_neg hp]
      have hpn : p ∉ hs.map pageOf := by
        intro hc
        exact hp ((dedupFirstGo_mem_iff (hs.map pageOf) [] p).mpr
          ⟨hc, List.not_mem_nil p⟩)
      unfold drawsFor
      split
      · rfl
      · rw [pageFilter_eq_nil hpn]
        rfl

/-- Witness for C9: page 5 resolves to nothing in a one-page document; the
record on page 5 draws nothing and page 1 still gets its group. -/
theorem exportPdf_graceful_skip_witness :
    (∀ pc ∈ (exportPdf onePageDoc [areaRecordP1, areaRecordP5] noOptions
        lenFont noEmbed).draws, pc.1 ≠ pageOf areaRecordP5) ∧
    (∀ p : ℤ, ((exportPdf onePageDoc [areaRecordP1, areaRecordP5] noOptions
        lenFont noEmbed).draws.filter (fun pc => pc.1 = p)) =
      drawsFor onePageDoc noOptions lenFont noEmbed
        [areaRecordP1, areaRecordP5] p) :=
  exportPdf_graceful_skip onePageDoc [areaRecordP1, areaRecordP5] noOptions
    lenFont noEmbed areaRecordP5
    (List.mem_cons_of_mem _ (List.mem_cons_self _ _)) (by decide)

/-- Filtering first by page and then by a different page's complement
changes nothing. -/
lemma pageFilter_filter_ne {p q : ℤ} (hpq : p ≠ q) :
    ∀ t : List ExportableHighlight,
      pageFilter p (t.filter (fun h2 => pageOf h2 ≠ q)) = pageFilter p t := by
  intro t
  induction t with
  | nil => rfl
  | cons h t ih =>
    rw [List.filter_cons]
    by_cases hh : pageOf h = p
    · rw [if_pos (by simp [hh, hpq])]
      rw [pageFilter_cons_self _ hh, pageFilter_cons_self _ hh, ih]
    · by_cases hq : pageOf h = q
      · rw [if_neg (by simp [hq])]
        rw [ih, pageFilter_cons_ne _ hh]
      · rw [if_pos (by simp [hq])]
        rw [pageFilter_cons_ne _ hh, pageFilter_cons_ne _ hh, ih]

/-- Pushing an element onto the seen-set equals pre-filtering it away. -/
lemma dedupFirstGo_cons_seen :
    ∀ (l s : List ℤ) (q : ℤ),
      dedupFirstGo (q :: s) l = dedupFirstGo s (l.filter (fun x => x ≠ q)) := by
  intro l
  induction l with
  | nil => intro s q; rfl
  | cons p ps ih =>
    intro s q
    rw [List.filter_cons]
    by_cases hpq : p = q
    · subst hpq
      rw [if_neg (by simp)]
      rw [dedupFirstGo_cons_of_mem (List.mem_cons_self p s)]
      exact ih s p
    · rw [if_pos (by simp [hpq])]
      by_cases hps : p ∈ s
      · rw [dedupFirstGo_cons_of_mem (List.mem_cons_of_mem q hps),
          dedupFirstGo_cons_of_mem hps]
        exact ih s q
      · rw [dedupFirstGo_cons_of_not_mem (by simp [hpq, hps]),
          dedupFirstGo_cons_of_not_mem hps]
        congr 1
        rw [dedupFirstGo_congr ps (p :: q :: s) (q :: p :: s)
          (by intro x; simp [List.mem_cons]; tauto)]
        exact ih (p :: s) q

/-- Filtering the page numbers commutes with filtering the records. -/
lemma map_pageOf_filter_ne (q : ℤ) :
    ∀ t : List ExportableHighlight,
      (t.map pageOf).filter (fun x => x ≠ q) =
        (t.filter (fun h2 => pageOf h2 ≠ q)).map pageOf := by
  intro t
  induction t with
  | nil => rfl
  | cons h2 t2 ih2 =>
    rw [List.map_cons, List.filter_cons, List.filter_cons]
    by_cases hh2 : pageOf h2 = q
    · rw [if_neg (by simp [hh2]), if_neg (by simp [hh2])]
      exact ih2
    · rw [if_pos (by simp [hh2]), if_pos (by simp [hh2]), List.map_cons, ih2]

/-- Concatenating the per-page groups gives back the records, up to
permutation. -/
lemma flatMap_dedup_pageFilter_perm :
    ∀ (n : ℕ) (hs : List ExportableHighlight), hs.length ≤ n →
      ((dedupKeepFirst (hs.map pageOf)).flatMap (fun p => pageFilter p hs)).Perm hs := by
  intro n
  induction n with
  | zero =>
    intro hs hlen
    rw [List.length_eq_zero.mp (Nat.le_zero.mp hlen)]
    exact List.Perm.refl _
  | succ n ihn =>
    intro hs hlen
    cases hs with
    | nil => exact List.Perm.refl _
    | cons h t =>
      rw [List.map_cons]
      have hd : dedupKeepFirst (pageOf h :: t.map pageOf) =
          pageOf h :: dedupKeepFirst ((t.map pageOf).filter (fun x => x ≠ pageOf h)) := by
        unfold dedupKeepFirst
        rw [dedupFirstGo_cons_of_not_mem (List.not_mem_nil _)]
        rw [dedupFirstGo_cons_seen]
      rw [hd, List.flatMap_cons, pageFilter_cons_self t rfl]
      have hmapfil := map_pageOf_filter_ne (pageOf h) t
      have hrest : (dedupKeepFirst ((t.map pageOf).filter (fun x => x ≠ pageOf h))).flatMap
            (fun p => pageFilter p (h :: t)) =
          (dedupKeepFirst ((t.filter (fun h2 => pageOf h2 ≠ pageOf h)).map pageOf)).flatMap
            (fun p => pageFilter p (t.filter (fun h2 => pageOf h2 ≠ pageOf h))) := by
        rw [hmapfil]
        refine flatMap_congr_mem _ _ _ ?_
        intro p hp
        have hpne : pageOf h ≠ p := by
          intro he
          obtain ⟨hp1, -⟩ := (dedupFirstGo_mem_iff _ [] p).mp hp
          obtain ⟨h3, h4, heq⟩ := List.mem_map.mp hp1
          have h5 := List.of_mem_filter h4
          simp only [decide_eq_true_eq] at h5
          exact h5 (heq.trans he.symm)
        rw [pageFilter_cons_ne t hpne, pageFilter_filter_ne (fun he => hpne he.symm)]
      rw [hrest]
      have hlen2 : (t.filter (fun h2 => pageOf h2 ≠ pageOf h)).length ≤ n := by
        have := List.length_filter_le (fun h2 => decide (pageOf h2 ≠ pageOf h)) t
        simp only [List.length_cons] at hlen
        omega
      have hperm := ihn (t.filter (fun h2 => pageOf h2 ≠ pageOf h)) hlen2
      refine List.Perm.cons h ?_
      refine List.Perm.trans (List.Perm.append_left (pageFilter (pageOf h) t) hperm) ?_
      have hsplit : pageFilter (pageOf h) t = t.filter (fun h2 => pageOf h2 = pageOf h) := rfl
      have heqf : t.filter (fun h2 => pageOf h2 ≠ pageOf h) =
          t.filter (fun h2 => !(decide (pageOf h2 = pageOf h))) := by
        refine List.filter_congr ?_
        intro x _
        simp [decide_not]
      rw [hsplit, heqf]
      exact List.filter_append_perm (fun h2 => decide (pageOf h2 = pageOf h)) t

/-- C10: `groupByPage` partitions its input: every record of a group has
that group's page number, and concatenating all groups in map-iteration
order gives back exactly the input records (none dropped, none
duplicated). -/
theorem groupByPage_partition (hs : List ExportableHighlight) :
    (∀ (p : ℤ) (g : List ExportableHighlight), (p, g) ∈ groupByPage hs →
      ∀ h ∈ g, pageOf h = p) ∧
    ((groupByPage hs).flatMap Prod.snd).Perm hs := by
  constructor
  · intro p g hpg h hg
    rw [groupByPage_eq] at hpg
    obtain ⟨q, hq, heq⟩ := List.mem_map.mp hpg
    rw [Prod.mk.injEq] at heq
    obtain ⟨rfl, rfl⟩ := heq
    have hf := List.of_mem_filter hg
    simpa using hf
  · rw [groupByPage_eq, flatMap_map_comp]
    exact flatMap_dedup_pageFilter_perm hs.length hs (le_refl _)

/-- Witness for C10: on a concrete two-record input, the record found in
page 1's group indeed targets page 1, and the groups concatenate back to
the input. -/
theorem groupByPage_partition_witness :
    pageOf areaRecordP1 = 1 ∧
    ((groupByPage [areaRecordP1, areaRecordP5]).flatMap Prod.snd).Perm
      [areaRecordP1, areaRecordP5] :=
  ⟨(groupByPage_partition [areaRecordP1, areaRecordP5]).1 1 [areaRecordP1]
      (by with_unfolding_all decide) areaRecordP1 (List.mem_cons_self _ _),
    (groupByPage_partition [areaRecordP1, areaRecordP5]).2⟩

/-! ### Freetext renderer lemmas -/

/-- The text-line loop in closed form: take the indexed wrapped lines while
their baselines `startY - i * lineHeight` stay at or above `bottom`, then
emit one text command per non-blank taken line at its baseline. -/
lemma drawTextLines_eq (xText bottom size lineHeight : ℚ) (col : RGBVal) :
    ∀ (lines : List (List Char)) (startY : ℚ) (i : ℕ),
      drawTextLines xText bottom size lineHeight col lines (startY - i * lineHeight) =
        ((withIdx lines i).takeWhile
            (fun il => decide (bottom ≤ startY - il.1 * lineHeight))).filterMap
          (fun il => if trimNonempty il.2 then
            some (DrawCmd.text il.2 xText (startY - il.1 * lineHeight) size col)
          else none) := by
  intro lines
  induction lines with
  | nil => intro startY i; rfl
  | cons l rest ih =>
    intro startY i
    unfold drawTextLines withIdx
    rw [List.takeWhile_cons]
    by_cases hb : startY - i * lineHeight < bottom
    · rw [if_pos hb, decide_eq_false (not_le.mpr hb)]
      rfl
    · rw [if_neg hb, decide_eq_true (not_lt.mp hb), if_pos rfl]
      have harith : startY - i * lineHeight - lineHeight =
          startY - (i + 1 : ℕ) * lineHeight := by
        push_cast
        ring
      rw [harith, ih startY (i + 1)]
      by_cases ht : trimNonempty l = true
      · simp [List.filterMap_cons, ht]
      · simp [List.filterMap_cons, ht]

/-- `drawTextLines_eq` at start index 0. -/
lemma drawTextLines_eq_zero (xText bottom size lineHeight : ℚ) (col : RGBVal)
    (lines : List (List Char)) (startY : ℚ) :
    drawTextLines xText bottom size lineHeight col lines startY =
      ((withIdx lines 0).takeWhile
          (fun il => decide (bottom ≤ startY - il.1 * lineHeight))).filterMap
        (fun il => if trimNonempty il.2 then
          some (DrawCmd.text il.2 xText (startY - il.1 * lineHeight) size col)
        else none) := by
  have h0 := drawTextLines_eq xText bottom size lineHeight col lines startY 0
  simpa using h0

/-- C5 (amended): for a freetext record with nonempty text and positive
inner width, the renderer emits exactly one filled background rectangle
first, then one text command per non-blank wrapped line, top-down, the
line at index `i` at baseline
`y + height - fontSize - padding - i * lineHeight` (the first baseline is
`top + boxHeight - fontSize - padding`, not `... - lineHeight - ...`),
stopping before the first line whose baseline would fall below the padded
bottom edge `y + padding`; excess text is silently dropped and the
function is total. -/
theorem renderFreetext_spec (pageW pageH : ℚ) (h : ExportableHighlight)
    (o : ExportPdfOptions) (font : List Char → ℚ → ℚ)
    (htext : freetextText h ≠ [])
    (hmw : 0 < freetextMaxWidth pageW pageH h) :
    renderFreetextHighlight pageW pageH h o font =
      DrawCmd.rect (freetextBox pageW pageH h).x (freetextBox pageW pageH h).y
          (freetextBox pageW pageH h).width (freetextBox pageW pageH h).height
          (toRGB (freetextBg h o)) (freetextBg h o).a ::
        ((withIdx (wrapText (freetextText h) font (freetextFontSize pageH h o)
              (freetextMaxWidth pageW pageH h)) 0).takeWhile
            (fun il => decide ((freetextBox pageW pageH h).y + freetextPadding pageH h ≤
              ((freetextBox pageW pageH h).y + (freetextBox pageW pageH h).height -
                  freetextFontSize pageH h o - freetextPadding pageH h) -
                il.1 * (freetextFontSize pageH h o * (13 / 10))))).filterMap
          (fun il => if trimNonempty il.2 then
            some (DrawCmd.text il.2
              ((freetextBox pageW pageH h).x + freetextPadding pageH h)
              (((freetextBox pageW pageH h).y + (freetextBox pageW pageH h).height -
                  freetextFontSize pageH h o - freetextPadding pageH h) -
                il.1 * (freetextFontSize pageH h o * (13 / 10)))
              (freetextFontSize pageH h o) (toRGB (freetextFg h o)))
          else none) := by
  unfold renderFreetextHighlight
  dsimp only
  rw [if_pos ⟨hmw, htext⟩]
  congr 1
  rw [drawTextLines_eq_zero]

/-- C5 (counterexample): for a concrete freetext record (box `y = 50`,
`height = 50`, `fontSize = 10`, `padding = 4`) the single text line's
baseline is `86 = y + height - fontSize - padding`, which differs from the
claimed `y + height - lineHeight - padding = 83` with
`lineHeight = 1.3 * fontSize`: the code subtracts `fontSize`, not
`lineHeight`, for the first baseline. -/
theorem renderFreetext_baseline_cex :
    renderFreetextHighlight 200 100 freetextRecord noOptions lenFont =
      [DrawCmd.rect 0 50 100 50 (toRGB (freetextBg freetextRecord noOptions))
          (freetextBg freetextRecord noOptions).a,
        DrawCmd.text "hi".toList 4 86 10 (toRGB (freetextFg freetextRecord noOptions))] ∧
    (86 : ℚ) = 50 + 50 - 10 - 4 ∧
    (86 : ℚ) ≠ 50 + 50 - 10 * (13 / 10) - 4 := by
  refine ⟨by with_unfolding_all decide, by norm_num, by norm_num⟩

/-- Witness for C5: the amended characterization applied to the concrete
freetext record. -/
theorem renderFreetext_spec_witness :
    renderFreetextHighlight 200 100 freetextRecord noOptions lenFont =
      DrawCmd.rect (freetextBox 200 100 freetextRecord).x
          (freetextBox 200 100 freetextRecord).y
          (freetextBox 200 100 freetextRecord).width
          (freetextBox 200 100 freetextRecord).height
          (toRGB (freetextBg freetextRecord noOptions))
          (freetextBg freetextRecord noOptions).a ::
        ((withIdx (wrapText (freetextText freetextRecord) lenFont
              (freetextFontSize 100 freetextRecord noOptions)
              (freetextMaxWidth 200 100 freetextRecord)) 0).takeWhile
            (fun il => decide ((freetextBox 200 100 freetextRecord).y +
              freetextPadding 100 freetextRecord ≤
              ((freetextBox 200 100 freetextRecord).y +
                  (freetextBox 200 100 freetextRecord).height -
                  freetextFontSize 100 freetextRecord noOptions -
                  freetextPadding 100 freetextRecord) -
                il.1 * (freetextFontSize 100 freetextRecord noOptions * (13 / 10))))).filterMap
          (fun il => if trimNonempty il.2 then
            some (DrawCmd.text il.2
              ((freetextBox 200 100 freetextRecord).x + freetextPadding 100 freetextRecord)
              (((freetextBox 200 100 freetextRecord).y +
                  (freetextBox 200 100 freetextRecord).height -
                  freetextFontSize 100 freetextRecord noOptions -
                  freetextPadding 100 freetextRecord) -
                il.1 * (freetextFontSize 100 freetextRecord noOptions * (13 / 10)))
              (freetextFontSize 100 freetextRecord noOptions)
              (toRGB (freetextFg freetextRecord noOptions)))
          else none) :=
  renderFreetext_spec 200 100 freetextRecord noOptions lenFont
    (by with_unfolding_all decide) (by with_unfolding_all decide)

end ExportPdfModel
